import Mathlib

/-!
A shallow embedding of the consensus core of the BasicPaxos repository
(`basicpaxos.py`): the three-phase Promise/Accept/Learn round (`paxos`) and the
read-with-repair procedure (`read`), together with a fine-grained transition
system for the protocol used to settle the learned-value agreement claims.

Modelling conventions:
* a replica's table is a list of rows (`DB`); SQL statements become list
  operations; the affected-row count of a conditional update becomes a count
  of matching rows;
* `NULL`-able integer columns are `Option Nat`, the binary `value` column is
  `Option Bytes` where `Bytes` abbreviates `List Nat`;
* a replica that fails every call of one round (network error, swallowed by the
  blanket `except` blocks) is a `none` entry of the `List (Option DB)` handed
  to a round;
* `random.shuffle` picks the order in which the replica list is traversed;
  theorems quantify over the list, hence over every order;
* Python's `TypeError` on a `None` comparison in the proposal-selection loop
  (possible only from malformed rows) is modelled by `Option`-valued selection
  (`chooseProposal` returns `none`) and the `Result.pyError` outcome.
-/

namespace BasicPaxos

/-- Opaque byte strings (keys and values). -/
abbrev Bytes := List Nat

/-- One row of the `paxos` relation of one replica:
`(key, version, promised_seq, accepted_seq, value)`, with `(key, version)` the
primary key. -/
structure Row where
  key : Bytes
  version : Int
  promised : Option Nat
  accepted : Option Nat
  value : Option Bytes
deriving DecidableEq, Repr

/-- One replica's table. -/
abbrev DB := List Row

/-- Primary-key match on `(key, version)`. -/
def rowMatch (k : Bytes) (v : Int) (r : Row) : Bool :=
  r.key == k && r.version == v

/-- The query `select ... from paxos where key=? and version=?` (first row, if any). -/
def findRow (db : DB) (k : Bytes) (v : Int) : Option Row :=
  db.find? (rowMatch k v)

/-- The `(key, version)` primary key holds: no two rows share a key/version pair. -/
def wfDB (db : DB) : Prop :=
  (db.map fun r => (r.key, r.version)).Nodup

instance (db : DB) : Decidable (wfDB db) := by unfold wfDB; infer_instance

/-- The statement `insert into paxos (key,version,promised_seq,accepted_seq) values(?,?,0,0)`,
with the uniqueness violation for an existing row swallowed
(basicpaxos.py lines 17-24). -/
def insertIfAbsent (db : DB) (k : Bytes) (v : Int) : DB :=
  match findRow db k v with
  | some _ => db
  | none => db ++ [⟨k, v, some 0, some 0, none⟩]

/-- The statement `update paxos set promised_seq=? where key=? and version=?` (line 47). -/
def updatePromised (db : DB) (k : Bytes) (v : Int) (s : Nat) : DB :=
  db.map fun r => if rowMatch k v r then { r with promised := some s } else r

/-- The three possible outcomes of one Promise-phase visit to a replica. -/
inductive POut where
  | learned (w : Option Bytes)
  | skip
  | tallied (a : Option Nat) (w : Option Bytes)
deriving DecidableEq, Repr

/-- One iteration of the Promise-phase loop (basicpaxos.py lines 16-56):
insert-if-absent, read the row, return `already-learned` when both ballots are
`NULL`, back out when `promised_seq >= seq`, otherwise record the round's `seq`
and tally the old `(accepted_seq, value)`.  A row with `promised_seq` `NULL`
but `accepted_seq` set would raise `TypeError` on `promised_seq >= seq`, which
the `except` swallows: a skip. -/
def promiseStep (k : Bytes) (v : Int) (s : Nat) (db : DB) : DB × POut :=
  let db1 := insertIfAbsent db k v
  match findRow db1 k v with
  | none => (db1, .skip)
  | some r =>
    match r.promised with
    | none =>
      match r.accepted with
      | none => (db1, .learned r.value)
      | some _ => (db1, .skip)
    | some p =>
      if s ≤ p then (db1, .skip)
      else (updatePromised db1 k v s, .tallied r.accepted r.value)

/-- The Promise phase over the replica list: returns the updated replicas, the
promise tally, and—when some replica reported the value already learned—the
early `already-learned` payload, in which case the remaining replicas are not
visited (the `return` on line 38). -/
def promisePhase (k : Bytes) (v : Int) (s : Nat) :
    List (Option DB) → List (Option DB) × List (Option Nat × Option Bytes) × Option (Option Bytes)
  | [] => ([], [], none)
  | none :: rest =>
    let (dbs, t, e) := promisePhase k v s rest
    (none :: dbs, t, e)
  | some db :: rest =>
    match promiseStep k v s db with
    | (db1, .learned w) => (some db1 :: rest, [], some w)
    | (db1, .skip) =>
      let (dbs, t, e) := promisePhase k v s rest
      (some db1 :: dbs, t, e)
    | (db1, .tallied a w) =>
      let (dbs, t, e) := promisePhase k v s rest
      (some db1 :: dbs, (a, w) :: t, e)

/-- The proposal-selection loop (basicpaxos.py lines 65-68), starting from
`proposal = (0, value)` and adopting any tally entry with a larger
`accepted_seq`.  A `none` `accepted_seq` in the tally would raise `TypeError`
in Python (uncaught): result `none`. -/
def adoptLoop (p : Nat × Option Bytes) :
    List (Option Nat × Option Bytes) → Option (Nat × Option Bytes)
  | [] => some p
  | e :: t =>
    match e.1 with
    | none => none
    | some a => adoptLoop (if p.1 < a then (a, e.2) else p) t

/-- Value-adoption rule: fold the tally from `(0, candidate)`. -/
def chooseProposal (cand : Bytes) (tally : List (Option Nat × Option Bytes)) :
    Option (Nat × Option Bytes) :=
  adoptLoop (0, some cand) tally

/-- The `where` clause of the Accept-phase conditional update
(`key=? and version=? and promised_seq=?`, line 83). -/
def acceptCond (k : Bytes) (v : Int) (s : Nat) (r : Row) : Bool :=
  rowMatch k v r && r.promised == some s

/-- One iteration of the Accept-phase loop (basicpaxos.py lines 73-90):
`update paxos set accepted_seq=?, value=? where key=? and version=? and
promised_seq=?`; the replica is counted when the affected-row count is 1. -/
def acceptStep (k : Bytes) (v : Int) (s : Nat) (w : Option Bytes) (db : DB) : DB × Bool :=
  (db.map fun r =>
    if acceptCond k v s r then { r with accepted := some s, value := w } else r,
   db.countP (acceptCond k v s) == 1)

/-- The Accept phase over the replica list: number of replicas counted. -/
def acceptPhase (k : Bytes) (v : Int) (s : Nat) (w : Option Bytes) :
    List (Option DB) → List (Option DB) × Nat
  | [] => ([], 0)
  | none :: rest =>
    let (dbs, c) := acceptPhase k v s w rest
    (none :: dbs, c)
  | some db :: rest =>
    let (db1, ok) := acceptStep k v s w db
    let (dbs, c) := acceptPhase k v s w rest
    (some db1 :: dbs, (if ok then 1 else 0) + c)

/-- The `where` clause of the Learn-phase conditional update
(`key=? and version=? and value is not null and promised_seq=? and
accepted_seq=?`, lines 116-117). -/
def learnCond (k : Bytes) (v : Int) (s : Nat) (r : Row) : Bool :=
  rowMatch k v r && r.value != none && r.promised == some s && r.accepted == some s

/-- One iteration of the Learn-phase loop (basicpaxos.py lines 98-125): delete
the older versions of the key (`version < ?`), then set both ballots `NULL`
where the row participated in this round; counted when the affected-row count
is 1. -/
def learnStep (k : Bytes) (v : Int) (s : Nat) (db : DB) : DB × Bool :=
  let db1 := db.filter fun r => !(r.key == k && decide (r.version < v))
  (db1.map fun r =>
    if learnCond k v s r then { r with promised := none, accepted := none } else r,
   db1.countP (learnCond k v s) == 1)

/-- The Learn phase over the replica list: number of replicas counted. -/
def learnPhase (k : Bytes) (v : Int) (s : Nat) :
    List (Option DB) → List (Option DB) × Nat
  | [] => ([], 0)
  | none :: rest =>
    let (dbs, c) := learnPhase k v s rest
    (none :: dbs, c)
  | some db :: rest =>
    let (db1, ok) := learnStep k v s db
    let (dbs, c) := learnPhase k v s rest
    (some db1 :: dbs, (if ok then 1 else 0) + c)

/-- The outcomes of a `paxos` round (the `status` fields of basicpaxos.py with
their payloads); `pyError` stands for the uncaught `TypeError` of the
proposal-selection loop. -/
inductive Result where
  | invalidInput
  | alreadyLearned (w : Option Bytes)
  | noPromiseQuorum (n : Nat)
  | noAcceptQuorum (n : Nat)
  | noLearnQuorum (n : Nat)
  | ok (version : Int)
  | resolved (w : Option Bytes)
  | pyError
deriving DecidableEq, Repr

/-- The Accept and Learn phases and the final status mapping of a round
(basicpaxos.py lines 70-138), given the adopted proposal. -/
def runAcceptLearn (q : Nat) (k : Bytes) (ver : Int) (s : Nat)
    (prop : Nat × Option Bytes) (dbs : List (Option DB)) : Result × List (Option DB) :=
  let (dbs2, na) := acceptPhase k ver s prop.2 dbs
  if na < q then (.noAcceptQuorum na, dbs2)
  else
    let (dbs3, nl) := learnPhase k ver s dbs2
    if nl < q then (.noLearnQuorum nl, dbs3)
    else if prop.1 = 0 then (.ok ver, dbs3)
    else (.resolved prop.2, dbs3)

/-- One full proposer round, `paxos(conns, quorum, key, version, value)`
(basicpaxos.py lines 7-138). -/
def paxos (q : Nat) (k : Bytes) (ver : Int) (cand : Bytes) (s : Nat)
    (dbs : List (Option DB)) : Result × List (Option DB) :=
  if k = [] ∨ cand = [] ∨ ver < 1 then (.invalidInput, dbs)
  else
    match promisePhase k ver s dbs with
    | (dbs1, _, some w) => (.alreadyLearned w, dbs1)
    | (dbs1, tally, none) =>
      if tally.length < q then (.noPromiseQuorum tally.length, dbs1)
      else
        match chooseProposal cand tally with
        | none => (.pyError, dbs1)
        | some prop => runAcceptLearn q k ver s prop dbs1

/-- A row in LEARNED state for `(key, version)`: both ballots `NULL`. -/
def learnedAt (k : Bytes) (v : Int) (r : Row) : Bool :=
  rowMatch k v r && r.promised == none && r.accepted == none

/-- The version-discovery query of `read` (basicpaxos.py lines 146-154): the
highest learned version above the running maximum, folded over one replica. -/
def scanStep (k : Bytes) (c : Int × Option Bytes) (db : DB) : Int × Option Bytes :=
  db.foldl
    (fun c r =>
      if r.key == k && decide (c.1 < r.version) && r.promised == none && r.accepted == none
      then (r.version, r.value) else c)
    c

/-- The version-discovery loop of `read` (lines 143-156), starting from
`(0, None)`; a failed replica contributes nothing. -/
def scanPhase (k : Bytes) (dbs : List (Option DB)) : Int × Option Bytes :=
  dbs.foldl (fun c odb => match odb with | none => c | some db => scanStep k c db) (0, none)

/-- One iteration of the read-repair loop (basicpaxos.py lines 163-188): when
the replica already holds exactly one learned row at `(key, V*)` it is counted
and left untouched (rollback); otherwise every row of the key with
`version <= V*` is deleted and the learned row `(key, V*, NULL, NULL, value)`
is inserted (affected-row count 1, hence counted). -/
def repairStep (k : Bytes) (v : Int) (w : Option Bytes) (db : DB) : DB × Bool :=
  if db.countP (learnedAt k v) == 1 then (db, true)
  else
    ((db.filter fun r => !(r.key == k && decide (r.version ≤ v))) ++ [⟨k, v, none, none, w⟩],
     true)

/-- The read-repair loop over the replica list. -/
def repairPhase (k : Bytes) (v : Int) (w : Option Bytes) :
    List (Option DB) → List (Option DB) × Nat
  | [] => ([], 0)
  | none :: rest =>
    let (dbs, c) := repairPhase k v w rest
    (none :: dbs, c)
  | some db :: rest =>
    let (db1, ok) := repairStep k v w db
    let (dbs, c) := repairPhase k v w rest
    (some db1 :: dbs, (if ok then 1 else 0) + c)

/-- The outcomes of `read`. -/
inductive ReadResult where
  | notFound
  | noQuorum (replicas : Nat)
  | ok (version : Int) (replicas : Nat) (w : Option Bytes)
deriving DecidableEq, Repr

/-- The function `read(conns, quorum, key, cache_expiry)` (basicpaxos.py lines 141-195):
version discovery, `not-found` when no learned row was seen, then read-repair
and the final quorum check on the repair count. -/
def readKV (q : Nat) (k : Bytes) (dbs : List (Option DB)) : ReadResult × List (Option DB) :=
  let (v, w) := scanPhase k dbs
  if v = 0 then (.notFound, dbs)
  else
    let (dbs1, c) := repairPhase k v w dbs
    if c < q then (.noQuorum c, dbs1)
    else (.ok v c w, dbs1)

/-- Replicas that responded to the round at all. -/
def aliveCount (dbs : List (Option DB)) : Nat :=
  dbs.countP fun odb => odb.isSome

/-- The view of the cluster a round gets when the replicas marked `false` fail
every call of that round. -/
def maskView (dbs : List DB) (mask : List Bool) : List (Option DB) :=
  List.zipWith (fun d m => if m then some d else none) dbs mask

/-- The cluster after a round: unreachable replicas keep their old state. -/
def unmask (dbs : List DB) (out : List (Option DB)) : List DB :=
  List.zipWith (fun d o => o.getD d) dbs out

/-- Cluster states reachable from `n` empty replicas through complete `paxos`
rounds, where each round may fail to reach any subset of the replicas.  Every
such run is one interleaving of Promise/Accept/Learn steps of the protocol. -/
inductive ReachDB (q n : Nat) : List DB → Prop where
  | init : ReachDB q n (List.replicate n [])
  | put (dbs : List DB) (mask : List Bool) (k : Bytes) (ver : Int) (cand : Bytes) (s : Nat) :
      ReachDB q n dbs → mask.length = n →
      ReachDB q n (unmask dbs (paxos q k ver cand s (maskView dbs mask)).2)

/-!
### Fine-grained protocol model for one `(key, version)` pair

To settle the learned-value agreement claim under arbitrary interleavings of
Promise/Accept/Learn steps by any number of concurrent proposers, the protocol
is modelled as a transition system.  The state keeps, for a fixed
`(key, version)` pair, each replica's row for that pair (a `Cell`; `none` when
the replica has no such row), and the local state of every proposer that has
started a round on that pair.  A round at another key or version never touches
this row, with one exception: the Learn-phase garbage collection of a round at
a *higher* version of the same key deletes it.  That delete is exactly what the
counterexample to the original claim exploits, and the transition system below
excludes it; its `Step` relation contains only the operations the `paxos`
rounds at `(key, version)` themselves perform on the row.

Each SQL transaction of basicpaxos.py is one atomic step.  The
insert-if-absent runs outside the transaction (it commits on its own), so it
is its own step (`ensureRow`).  A proposer may halt at any point (crash, or
one of the quorum checks failing); replicas fail a call by the corresponding
visit step simply never happening.  Two proposers may carry the same ballot
`seq`, as `int(time.time())` can collide.

The fields `votes`, `promRec` and `propRec` are ghost history added for the
invariant proof only: they record, respectively, every Accept-phase write
`(seq, value)` performed at a replica, every Promise-phase write `(seq,
proposer)` performed at a replica, and every adopted proposal
`(seq, proposer, value)`.  No guard reads them, so they do not constrain the
real components.
-/

/-- One replica's row for the fixed `(key, version)` pair. -/
structure Cell where
  promised : Option Nat
  accepted : Option Nat
  value : Option Bytes
deriving DecidableEq, Repr

/-- The control state of one proposer's round, mirroring the position inside
`paxos`: traversing the Promise loop, the Accept loop, or the Learn loop,
or finished/crashed (`halted`).  `visited` holds the replicas already visited
in the current loop, `tally` the promise tally together with the replica each
entry came from, `prop` the adopted proposal, and `acc`/`lrn` the replicas
counted in the Accept/Learn phases. -/
inductive Phase (n : Nat) where
  | promising (visited : Finset (Fin n)) (tally : List (Fin n × Option Nat × Option Bytes))
  | accepting (visited : Finset (Fin n)) (prop : Nat × Option Bytes) (acc : Finset (Fin n))
  | learning (visited : Finset (Fin n)) (prop : Nat × Option Bytes) (lrn : Finset (Fin n))
  | halted
deriving DecidableEq

/-- One proposer: its ballot, its caller-supplied candidate value, and its
control state. -/
structure Proposer (n : Nat) where
  seq : Nat
  cand : Bytes
  phase : Phase n
deriving DecidableEq

/-- The global protocol state for the fixed `(key, version)` pair over `n`
replicas (plus the ghost history described above). -/
structure GState (n : Nat) where
  cells : Fin n → Option Cell
  props : List (Proposer n)
  votes : Fin n → Finset (Nat × Option Bytes)
  promRec : Fin n → Finset (Nat × Nat)
  propRec : Finset (Nat × Nat × Option Bytes)

/-- Initially no replica has a row for the pair and no round has started. -/
def initState (n : Nat) : GState n :=
  { cells := fun _ => none
    props := []
    votes := fun _ => ∅
    promRec := fun _ => ∅
    propRec := ∅ }

/-- The atomic protocol steps; `q` is the cluster's quorum size.

* `start`: a new proposer begins a round with any ballot and candidate.
* `ensureRow`: the auto-committed insert-if-absent of lines 18-24 creates the
  row `(promised_seq, accepted_seq, value) = (0, 0, NULL)`.
* `promiseLearned`: the Promise transaction reads a LEARNED row; `paxos`
  returns `already-learned` (line 38), ending the round.
* `promiseTypeErr`: the row has `promised_seq` `NULL` but `accepted_seq` set;
  `promised_seq >= seq` raises and the `except` skips the replica.
* `promiseReject`: `promised_seq >= seq` (line 42), replica abandoned.
* `promiseWrite`: `promised_seq < seq`; the transaction writes
  `promised_seq := seq` and the old `(accepted_seq, value)` joins the tally.
* `toAccept`: with a quorum-sized tally, adopt the proposal (lines 58-68).
* `acceptHit`/`acceptMiss`: the conditional update of lines 81-87 — exactly
  the rows with `promised_seq = seq` are written and counted.
* `toLearn`: with a quorum of accepts, enter the Learn loop (line 92).
* `learnHit`/`learnMiss`: the conditional update of lines 114-122 (the
  garbage-collection delete touches only lower versions, hence not this cell).
* `halt`: the proposer stops (failure, quorum miss, or crash). -/
inductive Step (q : Nat) {n : Nat} : GState n → GState n → Prop where
  | start (σ : GState n) (s : Nat) (c : Bytes) :
      Step q σ { σ with props := σ.props ++ [⟨s, c, .promising ∅ []⟩] }
  | ensureRow (σ : GState n) (r : Fin n) :
      σ.cells r = none →
      Step q σ { σ with cells := Function.update σ.cells r (some ⟨some 0, some 0, none⟩) }
  | promiseLearned (σ : GState n) (i : Nat) (p : Proposer n) (vis : Finset (Fin n))
      (t : List (Fin n × Option Nat × Option Bytes)) (r : Fin n) (c : Cell) :
      σ.props[i]? = some p → p.phase = .promising vis t → r ∉ vis →
      σ.cells r = some c → c.promised = none → c.accepted = none →
      Step q σ { σ with props := σ.props.set i { p with phase := .halted } }
  | promiseTypeErr (σ : GState n) (i : Nat) (p : Proposer n) (vis : Finset (Fin n))
      (t : List (Fin n × Option Nat × Option Bytes)) (r : Fin n) (c : Cell) (a : Nat) :
      σ.props[i]? = some p → p.phase = .promising vis t → r ∉ vis →
      σ.cells r = some c → c.promised = none → c.accepted = some a →
      Step q σ { σ with props := σ.props.set i { p with phase := .promising (insert r vis) t } }
  | promiseReject (σ : GState n) (i : Nat) (p : Proposer n) (vis : Finset (Fin n))
      (t : List (Fin n × Option Nat × Option Bytes)) (r : Fin n) (c : Cell) (pv : Nat) :
      σ.props[i]? = some p → p.phase = .promising vis t → r ∉ vis →
      σ.cells r = some c → c.promised = some pv → p.seq ≤ pv →
      Step q σ { σ with props := σ.props.set i { p with phase := .promising (insert r vis) t } }
  | promiseWrite (σ : GState n) (i : Nat) (p : Proposer n) (vis : Finset (Fin n))
      (t : List (Fin n × Option Nat × Option Bytes)) (r : Fin n) (c : Cell) (pv : Nat) :
      σ.props[i]? = some p → p.phase = .promising vis t → r ∉ vis →
      σ.cells r = some c → c.promised = some pv → pv < p.seq →
      Step q σ { σ with
        cells := Function.update σ.cells r (some { c with promised := some p.seq })
        props := σ.props.set i
          { p with phase := .promising (insert r vis) (t ++ [(r, c.accepted, c.value)]) }
        promRec := Function.update σ.promRec r (insert (p.seq, i) (σ.promRec r)) }
  | toAccept (σ : GState n) (i : Nat) (p : Proposer n) (vis : Finset (Fin n))
      (t : List (Fin n × Option Nat × Option Bytes)) (pr : Nat × Option Bytes) :
      σ.props[i]? = some p → p.phase = .promising vis t →
      q ≤ t.length → chooseProposal p.cand (t.map fun e => e.2) = some pr →
      Step q σ { σ with
        props := σ.props.set i { p with phase := .accepting ∅ pr ∅ }
        propRec := insert (p.seq, i, pr.2) σ.propRec }
  | acceptHit (σ : GState n) (i : Nat) (p : Proposer n) (vis : Finset (Fin n))
      (pr : Nat × Option Bytes) (acc : Finset (Fin n)) (r : Fin n) (c : Cell) :
      σ.props[i]? = some p → p.phase = .accepting vis pr acc → r ∉ vis →
      σ.cells r = some c → c.promised = some p.seq →
      Step q σ { σ with
        cells := Function.update σ.cells r (some ⟨some p.seq, some p.seq, pr.2⟩)
        props := σ.props.set i { p with phase := .accepting (insert r vis) pr (insert r acc) }
        votes := Function.update σ.votes r (insert (p.seq, pr.2) (σ.votes r)) }
  | acceptMiss (σ : GState n) (i : Nat) (p : Proposer n) (vis : Finset (Fin n))
      (pr : Nat × Option Bytes) (acc : Finset (Fin n)) (r : Fin n) :
      σ.props[i]? = some p → p.phase = .accepting vis pr acc → r ∉ vis →
      (∀ c, σ.cells r = some c → c.promised ≠ some p.seq) →
      Step q σ { σ with
        props := σ.props.set i { p with phase := .accepting (insert r vis) pr acc } }
  | toLearn (σ : GState n) (i : Nat) (p : Proposer n) (vis : Finset (Fin n))
      (pr : Nat × Option Bytes) (acc : Finset (Fin n)) :
      σ.props[i]? = some p → p.phase = .accepting vis pr acc → q ≤ acc.card →
      Step q σ { σ with props := σ.props.set i { p with phase := .learning ∅ pr ∅ } }
  | learnHit (σ : GState n) (i : Nat) (p : Proposer n) (vis : Finset (Fin n))
      (pr : Nat × Option Bytes) (lrn : Finset (Fin n)) (r : Fin n) (c : Cell) (w : Bytes) :
      σ.props[i]? = some p → p.phase = .learning vis pr lrn → r ∉ vis →
      σ.cells r = some c → c.promised = some p.seq → c.accepted = some p.seq →
      c.value = some w →
      Step q σ { σ with
        cells := Function.update σ.cells r (some ⟨none, none, some w⟩)
        props := σ.props.set i { p with phase := .learning (insert r vis) pr (insert r lrn) } }
  | learnMiss (σ : GState n) (i : Nat) (p : Proposer n) (vis : Finset (Fin n))
      (pr : Nat × Option Bytes) (lrn : Finset (Fin n)) (r : Fin n) :
      σ.props[i]? = some p → p.phase = .learning vis pr lrn → r ∉ vis →
      (∀ c, σ.cells r = some c →
        ¬(c.promised = some p.seq ∧ c.accepted = some p.seq ∧ c.value ≠ none)) →
      Step q σ { σ with
        props := σ.props.set i { p with phase := .learning (insert r vis) pr lrn } }
  | halt (σ : GState n) (i : Nat) (p : Proposer n) :
      σ.props[i]? = some p →
      Step q σ { σ with props := σ.props.set i { p with phase := .halted } }

/-- Protocol states reachable from the empty cluster. -/
inductive Reach (q : Nat) {n : Nat} : GState n → Prop where
  | init : Reach q (initState n)
  | step (σ σ' : GState n) : Reach q σ → Step q σ σ' → Reach q σ'

/-- Replica `r` has moved past ballot `s`: its row exists and is LEARNED or
promised above `s`.  Such a replica can never accept at ballot `s` again. -/
def leftRnd {n : Nat} (σ : GState n) (r : Fin n) (s : Nat) : Prop :=
  ∃ c, σ.cells r = some c ∧
    (c.promised = none ∨ ∃ pv, c.promised = some pv ∧ s < pv)

/-- Ballot `s` has a quorum of Accept-phase writes. -/
def chosen {n : Nat} (q : Nat) (σ : GState n) (s : Nat) : Prop :=
  ∃ Q : Finset (Fin n), q ≤ Q.card ∧ ∀ r ∈ Q, ∃ w, (s, w) ∈ σ.votes r

/-- The inductive invariant of the protocol.  The final field is the heart of
the Paxos argument: once a value `w2` is proposed at ballot `s2`, then for
every lower ballot `s1` and every different value `w1`, every quorum contains
a replica that has moved past `s1` without having accepted `(s1, w1)` — so no
quorum can ever be completed for `(s1, w1)`. -/
structure Inv (q : Nat) {n : Nat} (σ : GState n) : Prop where
  cellPA : ∀ r c pv, σ.cells r = some c → c.promised = some pv →
    ∃ a, c.accepted = some a ∧ a ≤ pv
  cellLearned : ∀ r c, σ.cells r = some c → c.promised = none →
    c.accepted = none ∧
      ∃ s w, c.value = some w ∧ (s, some w) ∈ σ.votes r ∧ chosen q σ s
  cellVote : ∀ r c a, σ.cells r = some c → c.accepted = some a → 0 < a →
    (a, c.value) ∈ σ.votes r
  voteUB : ∀ r c a, σ.cells r = some c → c.accepted = some a →
    ∀ s w, (s, w) ∈ σ.votes r → s ≤ a
  voteCell : ∀ r s w, (s, w) ∈ σ.votes r → ∃ c, σ.cells r = some c
  promCell : ∀ r s i, (s, i) ∈ σ.promRec r →
    ∃ c, σ.cells r = some c ∧
      (c.promised = none ∨ ∃ pv, c.promised = some pv ∧ s ≤ pv)
  promSeqPos : ∀ r s i, (s, i) ∈ σ.promRec r → 1 ≤ s
  promUnique : ∀ r s i j, (s, i) ∈ σ.promRec r → (s, j) ∈ σ.promRec r → i = j
  promTally : ∀ i p vis t, σ.props[i]? = some p → p.phase = .promising vis t →
    (t.map fun e => e.1).Nodup ∧ (∀ e ∈ t, e.1 ∈ vis) ∧
    ∀ e ∈ t, (p.seq, i) ∈ σ.promRec e.1 ∧
      (∀ a, e.2.1 = some a → a < p.seq ∧ (0 < a → (a, e.2.2) ∈ σ.votes e.1)) ∧
      (∀ s w, (s, w) ∈ σ.votes e.1 → (∃ a, e.2.1 = some a ∧ s ≤ a) ∨ p.seq ≤ s)
  propQuorum : ∀ s i w, (s, i, w) ∈ σ.propRec →
    ∃ P : Finset (Fin n), q ≤ P.card ∧ ∀ r ∈ P, (s, i) ∈ σ.promRec r
  propUnique : ∀ s i w j w', (s, i, w) ∈ σ.propRec → (s, j, w') ∈ σ.propRec →
    i = j ∧ w = w'
  propPhase : ∀ s i w, (s, i, w) ∈ σ.propRec →
    ∃ p, σ.props[i]? = some p ∧ p.seq = s ∧
      (∀ vis t, p.phase ≠ .promising vis t) ∧
      (∀ vis pr acc, p.phase = .accepting vis pr acc → pr.2 = w) ∧
      (∀ vis pr lrn, p.phase = .learning vis pr lrn → pr.2 = w)
  accState : ∀ i p vis pr acc, σ.props[i]? = some p → p.phase = .accepting vis pr acc →
    (p.seq, i, pr.2) ∈ σ.propRec ∧ ∀ r ∈ acc, (p.seq, pr.2) ∈ σ.votes r
  learnState : ∀ i p vis pr lrn, σ.props[i]? = some p → p.phase = .learning vis pr lrn →
    (p.seq, i, pr.2) ∈ σ.propRec ∧ chosen q σ p.seq
  voteSafe : ∀ r s w, (s, w) ∈ σ.votes r → ∃ i, (s, i, w) ∈ σ.propRec
  adopt : ∀ s2 i2 w2, (s2, i2, w2) ∈ σ.propRec → ∀ s1, s1 < s2 → ∀ w1, w1 ≠ w2 →
    ∀ Q : Finset (Fin n), q ≤ Q.card →
    ∃ r ∈ Q, leftRnd σ r s1 ∧ (s1, w1) ∉ σ.votes r

/-! ## Basic lemmas about the row predicates and well-formed tables -/

lemma rowMatch_iff {k : Bytes} {v : Int} {r : Row} :
    rowMatch k v r = true ↔ r.key = k ∧ r.version = v := by
  simp [rowMatch]

lemma acceptCond_iff {k : Bytes} {v : Int} {s : Nat} {r : Row} :
    acceptCond k v s r = true ↔ r.key = k ∧ r.version = v ∧ r.promised = some s := by
  simp [acceptCond, rowMatch, and_assoc]

lemma learnCond_iff {k : Bytes} {v : Int} {s : Nat} {r : Row} :
    learnCond k v s r = true ↔
      r.key = k ∧ r.version = v ∧ r.value ≠ none ∧
        r.promised = some s ∧ r.accepted = some s := by
  simp [learnCond, rowMatch, and_assoc, bne_iff_ne]

lemma learnedAt_iff {k : Bytes} {v : Int} {r : Row} :
    learnedAt k v r = true ↔
      r.key = k ∧ r.version = v ∧ r.promised = none ∧ r.accepted = none := by
  simp [learnedAt, rowMatch, and_assoc]

lemma wf_unique {db : DB} (hwf : wfDB db) {r1 r2 : Row} (h1 : r1 ∈ db) (h2 : r2 ∈ db)
    (hk : r1.key = r2.key) (hv : r1.version = r2.version) : r1 = r2 :=
  List.inj_on_of_nodup_map hwf h1 h2 (by rw [hk, hv])

lemma countP_le_one_of_wf {k : Bytes} {v : Int} {db : DB} (hwf : wfDB db)
    {p : Row → Bool} (hp : ∀ r, p r = true → r.key = k ∧ r.version = v) :
    db.countP p ≤ 1 := by
  induction db with
  | nil => simp
  | cons r t ih =>
    rw [wfDB, List.map_cons, List.nodup_cons] at hwf
    rw [List.countP_cons]
    by_cases hpr : p r = true
    · have ht : t.countP p = 0 := by
        rw [List.countP_eq_zero]
        intro r' hr' hpr'
        obtain ⟨hk, hv⟩ := hp r hpr
        obtain ⟨hk', hv'⟩ := hp r' hpr'
        exact hwf.1 (List.mem_map.2 ⟨r', hr', by rw [hk', hv', hk, hv]⟩)
      simp [ht, hpr]
    · have := ih hwf.2
      rw [if_neg hpr]
      omega

lemma countP_eq_one_iff {k : Bytes} {v : Int} {db : DB} (hwf : wfDB db)
    {p : Row → Bool} (hp : ∀ r, p r = true → r.key = k ∧ r.version = v) :
    db.countP p = 1 ↔ ∃ r ∈ db, p r = true := by
  constructor
  · intro h
    exact List.countP_pos_iff.1 (by omega)
  · intro h
    have h1 := List.countP_pos_iff.2 h
    have h2 := countP_le_one_of_wf hwf hp
    omega

/-! ## The value-adoption fold -/

lemma adoptLoop_spec :
    ∀ (t : List (Option Nat × Option Bytes)) (p res : Nat × Option Bytes),
      adoptLoop p t = some res →
      p.1 ≤ res.1 ∧
      (∀ e ∈ t, ∃ a, e.1 = some a ∧ a ≤ res.1) ∧
      (res = p ∨ ∃ e ∈ t, e.1 = some res.1 ∧ e.2 = res.2 ∧ p.1 < res.1) := by
  intro t
  induction t with
  | nil =>
    intro p res h
    simp only [adoptLoop, Option.some_inj] at h
    subst h
    exact ⟨le_refl _, by simp, Or.inl rfl⟩
  | cons e t ih =>
    intro p res h
    rcases he : e.1 with _ | a
    · simp [adoptLoop, he] at h
    · simp only [adoptLoop, he] at h
      by_cases hpa : p.1 < a
      · rw [if_pos hpa] at h
        obtain ⟨h1, h2, h3⟩ := ih _ _ h
        refine ⟨le_trans (le_of_lt hpa) h1, ?_, ?_⟩
        · intro e' he'
          rcases List.mem_cons.1 he' with he' | he'
          · exact ⟨a, he' ▸ he, h1⟩
          · exact h2 e' he'
        · rcases h3 with h3 | ⟨e', he', h4, h5, h6⟩
          · exact Or.inr ⟨e, List.mem_cons_self e t, by rw [he, h3], by rw [h3], by rw [h3]; exact hpa⟩
          · exact Or.inr ⟨e', List.mem_cons_of_mem e he', h4, h5, lt_trans hpa h6⟩
      · rw [if_neg hpa] at h
        obtain ⟨h1, h2, h3⟩ := ih _ _ h
        refine ⟨h1, ?_, ?_⟩
        · intro e' he'
          rcases List.mem_cons.1 he' with he' | he'
          · exact ⟨a, he' ▸ he, le_trans (le_of_not_lt hpa) h1⟩
          · exact h2 e' he'
        · rcases h3 with h3 | ⟨e', he', h4, h5, h6⟩
          · exact Or.inl h3
          · exact Or.inr ⟨e', List.mem_cons_of_mem e he', h4, h5, h6⟩

lemma chooseProposal_spec {cand : Bytes} {tally : List (Option Nat × Option Bytes)}
    {m : Nat} {w : Option Bytes} (h : chooseProposal cand tally = some (m, w)) :
    (∀ e ∈ tally, ∃ a, e.1 = some a ∧ a ≤ m) ∧
    (m = 0 → w = some cand) ∧
    (0 < m → ∃ e ∈ tally, e.1 = some m ∧ e.2 = w) := by
  obtain ⟨h1, h2, h3⟩ := adoptLoop_spec tally (0, some cand) (m, w) h
  refine ⟨h2, ?_, ?_⟩
  · intro hm
    rcases h3 with h3 | ⟨e, he, h4, h5, h6⟩
    · exact congrArg Prod.snd h3
    · omega
  · intro hm
    rcases h3 with h3 | ⟨e, he, h4, h5, h6⟩
    · have : m = 0 := congrArg Prod.fst h3
      omega
    · exact ⟨e, he, h4, h5⟩

/-! ## Claims about the proposer round's adoption rule and outcome mapping -/

/-- Claim C2.  In every run of the proposer round that reaches a promise
quorum (and hence computes a proposal from the tally), the adopted proposal
`(m, w)` satisfies: `m` bounds every tally `accepted_seq`; if the maximum
`accepted_seq` is `0` the proposal is the caller's candidate; otherwise the
proposal is the value of a tally entry whose `accepted_seq` is that maximum.
The round then runs the Accept/Learn phases with exactly that proposal. -/
theorem paxos_value_adoption (q : Nat) (k : Bytes) (ver : Int) (cand : Bytes) (s : Nat)
    (dbs dbs1 : List (Option DB)) (tally : List (Option Nat × Option Bytes))
    (m : Nat) (w : Option Bytes)
    (hval : ¬(k = [] ∨ cand = [] ∨ ver < 1))
    (hpp : promisePhase k ver s dbs = (dbs1, tally, none))
    (hq : ¬ tally.length < q)
    (hcp : chooseProposal cand tally = some (m, w)) :
    paxos q k ver cand s dbs = runAcceptLearn q k ver s (m, w) dbs1 ∧
    (∀ e ∈ tally, ∃ a, e.1 = some a ∧ a ≤ m) ∧
    (m = 0 → w = some cand) ∧
    (0 < m → ∃ e ∈ tally, e.1 = some m ∧ e.2 = w) := by
  obtain ⟨h1, h2, h3⟩ := chooseProposal_spec hcp
  refine ⟨?_, h1, h2, h3⟩
  unfold paxos
  rw [if_neg hval, hpp]
  dsimp only
  rw [if_neg hq, hcp]

/-- Witness for `paxos_value_adoption`: a concrete run on three fresh
replicas adopts the candidate. -/
theorem paxos_value_adoption_witness :
    paxos 2 [1] 1 [7] 5 [some [], some [], some []] =
      runAcceptLearn 2 [1] 1 5 (0, some [7]) (promisePhase [1] 1 5 [some [], some [], some []]).1 ∧
    ((0 : Nat) = 0 → (some [7] : Option Bytes) = some [7]) := by
  have h := paxos_value_adoption 2 [1] 1 [7] 5 [some [], some [], some []]
    (promisePhase [1] 1 5 [some [], some [], some []]).1
    [(some 0, none), (some 0, none), (some 0, none)] 0 (some [7])
    (by decide) (by decide) (by decide) (by decide)
  exact ⟨h.1, h.2.2.1⟩

/-- Claim C5.  Once the round has passed the promise and accept quorum
checks: if fewer than `quorum` replicas learn it returns `no-learn-quorum`
with the count; otherwise it returns `ok version` exactly when the promise
tally's maximum `accepted_seq` was `0` (the proposal was the candidate), and
`resolved` with the adopted value otherwise. -/
theorem paxos_learn_outcome (q : Nat) (k : Bytes) (ver : Int) (cand : Bytes) (s : Nat)
    (dbs dbs1 dbs2 dbs3 : List (Option DB)) (tally : List (Option Nat × Option Bytes))
    (m : Nat) (w : Option Bytes) (na nl : Nat)
    (hval : ¬(k = [] ∨ cand = [] ∨ ver < 1))
    (hpp : promisePhase k ver s dbs = (dbs1, tally, none))
    (hq : ¬ tally.length < q)
    (hcp : chooseProposal cand tally = some (m, w))
    (hap : acceptPhase k ver s w dbs1 = (dbs2, na)) (hna : ¬ na < q)
    (hlp : learnPhase k ver s dbs2 = (dbs3, nl)) :
    (nl < q → paxos q k ver cand s dbs = (.noLearnQuorum nl, dbs3)) ∧
    (¬ nl < q → m = 0 → paxos q k ver cand s dbs = (.ok ver, dbs3)) ∧
    (¬ nl < q → m ≠ 0 → paxos q k ver cand s dbs = (.resolved w, dbs3)) ∧
    (m = 0 ↔ ∀ e ∈ tally, e.1 = some 0) := by
  obtain ⟨h1, h2, h3⟩ := chooseProposal_spec hcp
  have hpx : paxos q k ver cand s dbs = runAcceptLearn q k ver s (m, w) dbs1 := by
    unfold paxos
    rw [if_neg hval, hpp]
    dsimp only
    rw [if_neg hq, hcp]
  have hrun : runAcceptLearn q k ver s (m, w) dbs1 =
      if nl < q then (.noLearnQuorum nl, dbs3)
      else if m = 0 then (.ok ver, dbs3) else (.resolved w, dbs3) := by
    unfold runAcceptLearn
    rw [hap]
    dsimp only
    rw [if_neg hna, hlp]
  refine ⟨?_, ?_, ?_, ?_⟩
  · intro hnl
    rw [hpx, hrun, if_pos hnl]
  · intro hnl hm
    rw [hpx, hrun, if_neg hnl, if_pos hm]
  · intro hnl hm
    rw [hpx, hrun, if_neg hnl, if_neg hm]
  · constructor
    · intro hm e he
      obtain ⟨a, ha, hle⟩ := h1 e he
      have : a = 0 := by omega
      rw [ha, this]
    · intro hall
      by_contra hm
      obtain ⟨e, he, h4, _⟩ := h3 (by omega)
      have := hall e he
      rw [this] at h4
      exact hm (Option.some_inj.1 h4).symm

/-- Witness for `paxos_learn_outcome`: the same concrete run, where all three
replicas learn, the tally maximum is `0`, and the round returns `ok 1`. -/
theorem paxos_learn_outcome_witness :
    paxos 2 [1] 1 [7] 5 [some [], some [], some []] =
      (.ok 1, (learnPhase [1] 1 5 (acceptPhase [1] 1 5 (some [7])
        (promisePhase [1] 1 5 [some [], some [], some []]).1).1).1) := by
  have h := paxos_learn_outcome 2 [1] 1 [7] 5 [some [], some [], some []]
    (promisePhase [1] 1 5 [some [], some [], some []]).1
    (acceptPhase [1] 1 5 (some [7]) (promisePhase [1] 1 5 [some [], some [], some []]).1).1
    (learnPhase [1] 1 5 (acceptPhase [1] 1 5 (some [7])
      (promisePhase [1] 1 5 [some [], some [], some []]).1).1).1
    [(some 0, none), (some 0, none), (some 0, none)] 0 (some [7]) 3 3
    (by decide) (by decide) (by decide) (by decide) (by decide) (by decide) (by decide)
  exact h.2.1 (by decide) rfl

/-! ## Unfolding equations for the phase traversals -/

lemma promisePhase_cons_none {k : Bytes} {v : Int} {s : Nat} {rest : List (Option DB)} :
    promisePhase k v s (none :: rest) =
      (none :: (promisePhase k v s rest).1,
       (promisePhase k v s rest).2.1, (promisePhase k v s rest).2.2) := by
  rcases h : promisePhase k v s rest with ⟨a, t, e⟩
  simp [promisePhase, h]

lemma promisePhase_cons_skip {k : Bytes} {v : Int} {s : Nat} {db db1 : DB}
    {rest : List (Option DB)} (h : promiseStep k v s db = (db1, .skip)) :
    promisePhase k v s (some db :: rest) =
      (some db1 :: (promisePhase k v s rest).1,
       (promisePhase k v s rest).2.1, (promisePhase k v s rest).2.2) := by
  rcases hr : promisePhase k v s rest with ⟨a, t, e⟩
  simp [promisePhase, h, hr]

lemma promisePhase_cons_tallied {k : Bytes} {v : Int} {s : Nat} {db db1 : DB}
    {ta : Option Nat} {tw : Option Bytes} {rest : List (Option DB)}
    (h : promiseStep k v s db = (db1, .tallied ta tw)) :
    promisePhase k v s (some db :: rest) =
      (some db1 :: (promisePhase k v s rest).1,
       (ta, tw) :: (promisePhase k v s rest).2.1, (promisePhase k v s rest).2.2) := by
  rcases hr : promisePhase k v s rest with ⟨a, t, e⟩
  simp [promisePhase, h, hr]

lemma promisePhase_cons_learned {k : Bytes} {v : Int} {s : Nat} {db db1 : DB}
    {w : Option Bytes} {rest : List (Option DB)}
    (h : promiseStep k v s db = (db1, .learned w)) :
    promisePhase k v s (some db :: rest) = (some db1 :: rest, [], some w) := by
  simp [promisePhase, h]

lemma promiseStep_learned (k : Bytes) (ver : Int) (s : Nat) (db : DB) (r : Row)
    (hfind : findRow db k ver = some r)
    (hp : r.promised = none) (ha : r.accepted = none) :
    promiseStep k ver s db = (db, .learned r.value) := by
  have h1 : insertIfAbsent db k ver = db := by
    unfold insertIfAbsent
    rw [hfind]
  unfold promiseStep
  dsimp only
  rw [h1, hfind]
  dsimp only
  rw [hp]
  dsimp only
  rw [ha]

lemma promisePhase_append {k : Bytes} {ver : Int} {s : Nat} (pre rest : List (Option DB))
    (hpre : (promisePhase k ver s pre).2.2 = none) :
    promisePhase k ver s (pre ++ rest) =
      ((promisePhase k ver s pre).1 ++ (promisePhase k ver s rest).1,
       (promisePhase k ver s pre).2.1 ++ (promisePhase k ver s rest).2.1,
       (promisePhase k ver s rest).2.2) := by
  induction pre with
  | nil => simp [promisePhase]
  | cons odb pre ih =>
    rcases odb with _ | db
    · rw [promisePhase_cons_none] at hpre
      dsimp only at hpre
      show promisePhase k ver s (none :: (pre ++ rest)) = _
      rw [promisePhase_cons_none, promisePhase_cons_none, ih hpre]
      rfl
    · rcases hs : promiseStep k ver s db with ⟨db1, out⟩
      rcases out with w | _ | ⟨ta, tw⟩
      · rw [promisePhase_cons_learned hs] at hpre
        simp at hpre
      · rw [promisePhase_cons_skip hs] at hpre
        dsimp only at hpre
        show promisePhase k ver s (some db :: (pre ++ rest)) = _
        rw [promisePhase_cons_skip hs, promisePhase_cons_skip hs, ih hpre]
        rfl
      · rw [promisePhase_cons_tallied hs] at hpre
        dsimp only at hpre
        show promisePhase k ver s (some db :: (pre ++ rest)) = _
        rw [promisePhase_cons_tallied hs, promisePhase_cons_tallied hs, ih hpre]
        rfl

/-! ## Early abort on an already-learned value (claim C7) -/

/-- Claim C7.  If, during the Promise phase, a replica's row for
`(key, version)` has both ballots `NULL` (LEARNED), the round returns
`already-learned` with that row's value at once: the replicas after it in the
visiting order are not touched at all (they keep their exact state), the
learned replica itself is unchanged, and no Accept or Learn phase runs. -/
theorem paxos_already_learned_aborts (q : Nat) (k : Bytes) (ver : Int) (cand : Bytes)
    (s : Nat) (pre post : List (Option DB)) (db : DB) (r : Row)
    (hval : ¬(k = [] ∨ cand = [] ∨ ver < 1))
    (hpre : (promisePhase k ver s pre).2.2 = none)
    (hfind : findRow db k ver = some r)
    (hp : r.promised = none) (ha : r.accepted = none) :
    paxos q k ver cand s (pre ++ some db :: post) =
      (.alreadyLearned r.value, (promisePhase k ver s pre).1 ++ some db :: post) := by
  have hstep := promiseStep_learned k ver s db r hfind hp ha
  have hpp : promisePhase k ver s (pre ++ some db :: post) =
      ((promisePhase k ver s pre).1 ++ some db :: post,
       (promisePhase k ver s pre).2.1 ++ [], some r.value) := by
    rw [promisePhase_append pre _ hpre, promisePhase_cons_learned hstep]
  unfold paxos
  rw [if_neg hval, hpp]

/-- Witness for `paxos_already_learned_aborts`: one learned replica in the
middle of three; the round aborts with its value and the trailing replica is
untouched. -/
theorem paxos_already_learned_aborts_witness :
    paxos 2 [1] 1 [7] 5
        [some [], some [⟨[1], 1, none, none, some [9]⟩], some [⟨[2], 3, some 4, some 4, none⟩]] =
      (.alreadyLearned (some [9]),
       [some [⟨[1], 1, some 5, some 0, none⟩], some [⟨[1], 1, none, none, some [9]⟩],
        some [⟨[2], 3, some 4, some 4, none⟩]]) := by
  have h := paxos_already_learned_aborts 2 [1] 1 [7] 5 [some []]
    [some [⟨[2], 3, some 4, some 4, none⟩]] [⟨[1], 1, none, none, some [9]⟩]
    ⟨[1], 1, none, none, some [9]⟩ (by decide) (by decide) (by decide) rfl rfl
  exact h.trans (by decide)

/-! ## Input validation (claim C9) -/

lemma runAcceptLearn_ne_invalid (q : Nat) (k : Bytes) (ver : Int) (s : Nat)
    (pr : Nat × Option Bytes) (dbs : List (Option DB)) :
    (runAcceptLearn q k ver s pr dbs).1 ≠ .invalidInput := by
  unfold runAcceptLearn
  rcases hap : acceptPhase k ver s pr.2 dbs with ⟨dbs2, na⟩
  dsimp only
  by_cases hna : na < q
  · rw [if_pos hna]
    simp
  · rw [if_neg hna]
    rcases hlp : learnPhase k ver s dbs2 with ⟨dbs3, nl⟩
    dsimp only
    by_cases hnl : nl < q
    · rw [if_pos hnl]
      simp
    · rw [if_neg hnl]
      by_cases hm : pr.1 = 0
      · rw [if_pos hm]
        simp
      · rw [if_neg hm]
        simp

/-- Claim C9.  An empty key, an empty candidate value, or a version below 1
makes `paxos` return `invalid-input` before touching any replica (the replica
states are returned exactly as given); for every other input the round
proceeds and its outcome is never `invalid-input`.  The rejection is an
ordinary return value: the function is total, nothing is thrown. -/
theorem paxos_invalid_input (q : Nat) (k : Bytes) (ver : Int) (cand : Bytes) (s : Nat)
    (dbs : List (Option DB)) :
    (k = [] ∨ cand = [] ∨ ver < 1 → paxos q k ver cand s dbs = (.invalidInput, dbs)) ∧
    (¬(k = [] ∨ cand = [] ∨ ver < 1) → (paxos q k ver cand s dbs).1 ≠ .invalidInput) := by
  constructor
  · intro h
    unfold paxos
    rw [if_pos h]
  · intro h
    unfold paxos
    rw [if_neg h]
    rcases hpp : promisePhase k ver s dbs with ⟨dbs1, tally, e⟩
    rcases e with _ | w
    · dsimp only
      by_cases hq : tally.length < q
      · rw [if_pos hq]
        simp
      · rw [if_neg hq]
        rcases hcp : chooseProposal cand tally with _ | pr
        · simp
        · exact runAcceptLearn_ne_invalid q k ver s pr dbs1
    · dsimp only
      simp

/-- Witness for `paxos_invalid_input`: an empty key is rejected with no
replica touched; a valid put is not rejected. -/
theorem paxos_invalid_input_witness :
    paxos 2 [] 1 [7] 5 [some []] = (.invalidInput, [some []]) ∧
    (paxos 2 [1] 1 [7] 5 [some []]).1 ≠ .invalidInput :=
  ⟨(paxos_invalid_input 2 [] 1 [7] 5 [some []]).1 (Or.inl rfl),
   (paxos_invalid_input 2 [1] 1 [7] 5 [some []]).2 (by decide)⟩

/-! ## The Accept-phase conditional update (claim C3) -/

lemma wf_no_other_match {pre post : List Row} {r : Row}
    (hwf : wfDB (pre ++ r :: post)) :
    ∀ r' ∈ pre ++ post, ¬(r'.key = r.key ∧ r'.version = r.version) := by
  intro r' hr' ⟨hk, hv⟩
  have hmap : ((pre ++ r :: post).map fun x => (x.key, x.version)).Nodup := hwf
  rw [List.map_append, List.map_cons] at hmap
  have hmid := List.nodup_middle.1 hmap
  rw [List.nodup_cons] at hmid
  apply hmid.1
  rw [← List.map_append]
  exact List.mem_map.2 ⟨r', hr', by rw [hk, hv]⟩

/-- Claim C3.  In the Accept phase, a replica is counted toward the accept
quorum exactly when its table holds a row for `(key, version)` whose
`promised_seq` equals the round's ballot (the conditional update affects one
row), and that row is updated to `(accepted_seq, value) := (ballot, proposal)`
with every other row untouched; when no row has `promised_seq = ballot`
(smaller, larger, `NULL`, or no row at all) nothing is written and the
replica is not counted. -/
theorem acceptStep_counted_iff (k : Bytes) (v : Int) (s : Nat) (w : Option Bytes)
    (db : DB) (hwf : wfDB db) :
    ((acceptStep k v s w db).2 = true ↔
      ∃ r ∈ db, r.key = k ∧ r.version = v ∧ r.promised = some s) ∧
    ((acceptStep k v s w db).2 = false → (acceptStep k v s w db).1 = db) ∧
    (∀ r ∈ db, r.key = k → r.version = v → r.promised = some s →
      ∃ pre post, db = pre ++ r :: post ∧
        (acceptStep k v s w db).1 =
          pre ++ { r with accepted := some s, value := w } :: post) := by
  have hp : ∀ r, acceptCond k v s r = true → r.key = k ∧ r.version = v := by
    intro r h
    obtain ⟨h1, h2, _⟩ := acceptCond_iff.1 h
    exact ⟨h1, h2⟩
  have hcount : (acceptStep k v s w db).2 = true ↔ db.countP (acceptCond k v s) = 1 := by
    unfold acceptStep
    simp
  refine ⟨?_, ?_, ?_⟩
  · rw [hcount, countP_eq_one_iff hwf hp]
    constructor
    · rintro ⟨r, hr, hc⟩
      exact ⟨r, hr, acceptCond_iff.1 hc⟩
    · rintro ⟨r, hr, h1, h2, h3⟩
      exact ⟨r, hr, acceptCond_iff.2 ⟨h1, h2, h3⟩⟩
  · intro hfalse
    have hne : db.countP (acceptCond k v s) ≠ 1 := by
      intro h
      rw [hcount.2 h] at hfalse
      exact absurd hfalse (by decide)
    have hle := countP_le_one_of_wf hwf hp
    have h0 : db.countP (acceptCond k v s) = 0 := by omega
    have hnone := List.countP_eq_zero.1 h0
    unfold acceptStep
    dsimp only
    have hid : ∀ x ∈ db,
        (if acceptCond k v s x then { x with accepted := some s, value := w } else x) = x := by
      intro x hx
      rw [if_neg]
      exact fun hc => hnone x hx hc
    rw [List.map_congr_left hid, List.map_id']
  · intro r hr h1 h2 h3
    obtain ⟨pre, post, rfl⟩ := List.append_of_mem hr
    have hother := wf_no_other_match hwf
    have hid : ∀ x ∈ pre ++ post,
        (if acceptCond k v s x then { x with accepted := some s, value := w } else x) = x := by
      intro x hx
      rw [if_neg]
      intro hc
      obtain ⟨hxk, hxv⟩ := hp x hc
      exact hother x hx ⟨hxk.trans h1.symm, hxv.trans h2.symm⟩
    refine ⟨pre, post, rfl, ?_⟩
    unfold acceptStep
    dsimp only
    rw [List.map_append, List.map_cons]
    have hcond : acceptCond k v s r = true := acceptCond_iff.2 ⟨h1, h2, h3⟩
    rw [if_pos hcond]
    rw [List.map_congr_left fun x hx => hid x (List.mem_append_left post hx), List.map_id']
    rw [List.map_congr_left fun x hx => hid x (List.mem_append_right pre hx), List.map_id']

/-- Witness for `acceptStep_counted_iff`: a replica whose row promised this
ballot is counted; one that promised a higher ballot writes nothing. -/
theorem acceptStep_counted_iff_witness :
    (acceptStep [1] 1 5 (some [7]) [⟨[1], 1, some 5, some 0, none⟩]).2 = true ∧
    (acceptStep [1] 1 5 (some [7]) [⟨[1], 1, some 9, some 0, none⟩]).1 =
      [⟨[1], 1, some 9, some 0, none⟩] := by
  constructor
  · exact (acceptStep_counted_iff [1] 1 5 (some [7]) [⟨[1], 1, some 5, some 0, none⟩]
      (by decide)).1.2 (by decide)
  · exact (acceptStep_counted_iff [1] 1 5 (some [7]) [⟨[1], 1, some 9, some 0, none⟩]
      (by decide)).2.1 (by decide)

/-! ## The Learn-phase transaction (claim C4) -/

/-- Claim C4.  One Learn-phase transaction first deletes every row of the
same key with a strictly lower version, then sets both ballots `NULL` on the
`(key, version)` row exactly where `promised_seq = ballot`,
`accepted_seq = ballot` and `value` is not `NULL`; the replica is counted
(affected-row count 1) exactly when its table holds such a row. -/
theorem learnStep_spec (k : Bytes) (v : Int) (s : Nat) (db : DB) (hwf : wfDB db) :
    ((learnStep k v s db).2 = true ↔
      ∃ r ∈ db, r.key = k ∧ r.version = v ∧ r.value ≠ none ∧
        r.promised = some s ∧ r.accepted = some s) ∧
    (∀ r', r' ∈ (learnStep k v s db).1 ↔
      ∃ r ∈ db, ¬(r.key = k ∧ r.version < v) ∧
        r' = if learnCond k v s r then { r with promised := none, accepted := none }
             else r) := by
  have hp : ∀ r, learnCond k v s r = true → r.key = k ∧ r.version = v := by
    intro r h
    obtain ⟨h1, h2, _⟩ := learnCond_iff.1 h
    exact ⟨h1, h2⟩
  have hwf1 : wfDB (db.filter fun r => !(r.key == k && decide (r.version < v))) := by
    unfold wfDB at hwf ⊢
    exact hwf.sublist (List.Sublist.map _ (List.filter_sublist db))
  constructor
  · have hcount : (learnStep k v s db).2 = true ↔
        (db.filter fun r => !(r.key == k && decide (r.version < v))).countP
          (learnCond k v s) = 1 := by
      unfold learnStep
      simp
    rw [hcount, countP_eq_one_iff hwf1 hp]
    constructor
    · rintro ⟨r, hr, hc⟩
      exact ⟨r, (List.mem_filter.1 hr).1, learnCond_iff.1 hc⟩
    · rintro ⟨r, hr, h1, h2, h3, h4, h5⟩
      refine ⟨r, List.mem_filter.2 ⟨hr, ?_⟩, learnCond_iff.2 ⟨h1, h2, h3, h4, h5⟩⟩
      simp [h1, h2]
  · intro r'
    unfold learnStep
    dsimp only
    rw [List.mem_map]
    constructor
    · rintro ⟨r, hr, rfl⟩
      have hm := List.mem_filter.1 hr
      refine ⟨r, hm.1, ?_, rfl⟩
      rw [not_and]
      intro h1 h2
      have h2' := hm.2
      simp [h1, h2] at h2'
    · rintro ⟨r, hr, hkeep, rfl⟩
      rw [not_and] at hkeep
      refine ⟨r, List.mem_filter.2 ⟨hr, ?_⟩, rfl⟩
      by_cases h1 : r.key = k
      · simp [h1, hkeep h1]
      · simp [h1]

/-- Witness for `learnStep_spec`: the lower version is deleted, the row that
participated in the round turns LEARNED, and the replica is counted. -/
theorem learnStep_spec_witness :
    (learnStep [1] 2 5 [⟨[1], 1, none, none, some [3]⟩, ⟨[1], 2, some 5, some 5, some [7]⟩]).2
      = true ∧
    (⟨[1], 2, none, none, some [7]⟩ : Row) ∈
      (learnStep [1] 2 5 [⟨[1], 1, none, none, some [3]⟩, ⟨[1], 2, some 5, some 5, some [7]⟩]).1 := by
  have h := learnStep_spec [1] 2 5
    [⟨[1], 1, none, none, some [3]⟩, ⟨[1], 2, some 5, some 5, some [7]⟩] (by decide)
  constructor
  · exact h.1.2 (by decide)
  · exact (h.2 ⟨[1], 2, none, none, some [7]⟩).2 (by decide)

/-! ## Monotone promises on a single replica (claim C6) -/

lemma findRow_mem {db : DB} {k : Bytes} {v : Int} {r : Row}
    (h : findRow db k v = some r) : r ∈ db ∧ r.key = k ∧ r.version = v :=
  ⟨List.mem_of_find?_eq_some h, rowMatch_iff.1 (List.find?_some h)⟩

lemma findRow_none_no_match {db : DB} {k : Bytes} {v : Int}
    (h : findRow db k v = none) : ∀ r ∈ db, ¬(r.key = k ∧ r.version = v) := by
  intro r hr hm
  exact List.find?_eq_none.1 h r hr (rowMatch_iff.2 hm)

lemma mem_insertIfAbsent {db : DB} {k : Bytes} {v : Int} {r' : Row}
    (h : r' ∈ insertIfAbsent db k v) :
    r' ∈ db ∨ (r' = ⟨k, v, some 0, some 0, none⟩ ∧ findRow db k v = none) := by
  unfold insertIfAbsent at h
  rcases hf : findRow db k v with _ | r0
  · rw [hf] at h
    rcases List.mem_append.1 h with h | h
    · exact Or.inl h
    · simp only [List.mem_singleton] at h
      exact Or.inr ⟨h, rfl⟩
  · rw [hf] at h
    exact Or.inl h

lemma promiseStep_cases (k : Bytes) (v : Int) (s : Nat) (db : DB) :
    (promiseStep k v s db).1 = insertIfAbsent db k v ∨
    ((promiseStep k v s db).1 = updatePromised (insertIfAbsent db k v) k v s ∧
      ∃ r0 p0, findRow (insertIfAbsent db k v) k v = some r0 ∧
        r0.promised = some p0 ∧ p0 < s) := by
  unfold promiseStep
  dsimp only
  rcases hf : findRow (insertIfAbsent db k v) k v with _ | r0
  · exact Or.inl rfl
  · dsimp only
    rcases hpr : r0.promised with _ | p0
    · rcases hac : r0.accepted with _ | a
      · exact Or.inl rfl
      · exact Or.inl rfl
    · dsimp only
      by_cases hs : s ≤ p0
      · rw [if_pos hs]
        exact Or.inl rfl
      · rw [if_neg hs]
        exact Or.inr ⟨rfl, r0, p0, rfl, hpr, by omega⟩

/-- Claim C6.  On a single replica, for any row in PROMISED or ACCEPTED state
(`promised_seq` non-`NULL`) before and after the write of any one of the three
phases, `promised_seq` never decreases: the Promise write raises it only when
the stored ballot is strictly below the round's (`promised_seq >= seq` is a
rejection that leaves the row unchanged), the Accept write does not touch it,
and the Learn write either leaves it or sets it `NULL` (leaving the PROMISED/
ACCEPTED states, to which the claim is restricted). -/
theorem promised_seq_monotone (k : Bytes) (v : Int) (s : Nat) (w : Option Bytes)
    (db : DB) (hwf : wfDB db) (k' : Bytes) (v' : Int) (r r' : Row) (p p' : Nat)
    (hr : r ∈ db) (hk : r.key = k') (hv : r.version = v') (hp : r.promised = some p) :
    ((r' ∈ (promiseStep k v s db).1 → r'.key = k' → r'.version = v' →
        r'.promised = some p' → p ≤ p') ∧
     (r' ∈ (acceptStep k v s w db).1 → r'.key = k' → r'.version = v' →
        r'.promised = some p' → p ≤ p') ∧
     (r' ∈ (learnStep k v s db).1 → r'.key = k' → r'.version = v' →
        r'.promised = some p' → p ≤ p')) := by
  refine ⟨?_, ?_, ?_⟩
  · intro hr' hk' hv' hp'
    rcases promiseStep_cases k v s db with hcase | ⟨hcase, r0, p0, hf0, hp0, hlt⟩
    · rw [hcase] at hr'
      rcases mem_insertIfAbsent hr' with h | ⟨rfl, hnone⟩
      · have heq : r' = r := wf_unique hwf h hr (hk'.trans hk.symm) (hv'.trans hv.symm)
        rw [heq, hp] at hp'
        exact le_of_eq (Option.some_inj.1 hp')
      · exfalso
        simp only at hk' hv'
        exact findRow_none_no_match hnone r hr ⟨hk.trans hk'.symm ▸ rfl, by
          rw [hv, ← hv']⟩
    · rw [hcase] at hr'
      unfold updatePromised at hr'
      rw [List.mem_map] at hr'
      obtain ⟨r1, hr1, heq⟩ := hr'
      rcases mem_insertIfAbsent hr1 with h1 | ⟨rfl, hnone⟩
      · by_cases hm : rowMatch k v r1 = true
        · rw [if_pos hm] at heq
          obtain ⟨h1k, h1v⟩ := rowMatch_iff.1 hm
          have hps : r'.promised = some s := by rw [← heq]
          have hkk : r1.key = k' := by rw [← hk', ← heq]
          have hvv : r1.version = v' := by rw [← hv', ← heq]
          have heqr : r1 = r := wf_unique hwf h1 hr (hkk.trans hk.symm) (hvv.trans hv.symm)
          rcases mem_insertIfAbsent (findRow_mem hf0).1 with h0 | ⟨h0, hnone⟩
          · obtain ⟨h0k, h0v⟩ := (findRow_mem hf0).2
            have heq0 : r0 = r1 := wf_unique hwf h0 h1 (h0k.trans h1k.symm) (h0v.trans h1v.symm)
            have hpp : p = p0 := by
              have : r.promised = some p0 := by rw [← heqr, ← heq0, hp0]
              rw [hp] at this
              exact Option.some_inj.1 this
            rw [hps] at hp'
            have : s = p' := Option.some_inj.1 hp'
            omega
          · exfalso
            exact findRow_none_no_match hnone r1 h1 ⟨h1k, h1v⟩
        · rw [if_neg hm] at heq
          have heqr : r1 = r := by
            apply wf_unique hwf h1 hr
            · rw [heq, hk', ← hk]
            · rw [heq, hv', ← hv]
          rw [← heq, heqr, hp] at hp'
          exact le_of_eq (Option.some_inj.1 hp')
      · exfalso
        by_cases hm : rowMatch k v (⟨k, v, some 0, some 0, none⟩ : Row) = true
        · rw [if_pos hm] at heq
          have hkk : k = k' := by rw [← hk', ← heq]
          have hvv : v = v' := by rw [← hv', ← heq]
          exact findRow_none_no_match hnone r hr ⟨hk.trans hkk.symm, hv.trans hvv.symm⟩
        · rw [if_neg hm] at heq
          have hkk : k = k' := by rw [← hk', ← heq]
          have hvv : v = v' := by rw [← hv', ← heq]
          exact findRow_none_no_match hnone r hr ⟨hk.trans hkk.symm, hv.trans hvv.symm⟩
  · intro hr' hk' hv' hp'
    unfold acceptStep at hr'
    dsimp only at hr'
    rw [List.mem_map] at hr'
    obtain ⟨r1, hr1, heq⟩ := hr'
    by_cases hm : acceptCond k v s r1 = true
    · rw [if_pos hm] at heq
      have heqr : r1 = r := by
        apply wf_unique hwf hr1 hr
        · rw [show r1.key = r'.key from by rw [← heq], hk', ← hk]
        · rw [show r1.version = r'.version from by rw [← heq], hv', ← hv]
      have hprom : r'.promised = r1.promised := by rw [← heq]
      rw [hprom, heqr, hp] at hp'
      exact le_of_eq (Option.some_inj.1 hp')
    · rw [if_neg hm] at heq
      have heqr : r1 = r := by
        apply wf_unique hwf hr1 hr
        · rw [heq, hk', ← hk]
        · rw [heq, hv', ← hv]
      rw [← heq, heqr, hp] at hp'
      exact le_of_eq (Option.some_inj.1 hp')
  · intro hr' hk' hv' hp'
    unfold learnStep at hr'
    dsimp only at hr'
    rw [List.mem_map] at hr'
    obtain ⟨r1, hr1, heq⟩ := hr'
    have h1 := (List.mem_filter.1 hr1).1
    by_cases hm : learnCond k v s r1 = true
    · rw [if_pos hm] at heq
      exfalso
      have : r'.promised = none := by rw [← heq]
      rw [this] at hp'
      exact Option.noConfusion hp'
    · rw [if_neg hm] at heq
      have heqr : r1 = r := by
        apply wf_unique hwf h1 hr
        · rw [heq, hk', ← hk]
        · rw [heq, hv', ← hv]
      rw [← heq, heqr, hp] at hp'
      exact le_of_eq (Option.some_inj.1 hp')

/-- Witness for `promised_seq_monotone`: a Promise write raises a stored
ballot 5 to the round's ballot 9. -/
theorem promised_seq_monotone_witness : (5 : Nat) ≤ 9 :=
  (promised_seq_monotone [1] 1 9 (some [7]) [⟨[1], 1, some 5, some 0, none⟩] (by decide)
    [1] 1 ⟨[1], 1, some 5, some 0, none⟩ ⟨[1], 1, some 9, some 0, none⟩ 5 9
    (by decide) rfl rfl rfl).1 (by decide) rfl rfl rfl

/-! ## The read path: version discovery, `not-found`, quorum (claim C8) -/

lemma repairStep_flag (k : Bytes) (v : Int) (w : Option Bytes) (db : DB) :
    (repairStep k v w db).2 = true := by
  unfold repairStep
  split <;> rfl

lemma repairPhase_cons_none {k : Bytes} {v : Int} {w : Option Bytes}
    {rest : List (Option DB)} :
    repairPhase k v w (none :: rest) =
      (none :: (repairPhase k v w rest).1, (repairPhase k v w rest).2) := by
  rcases h : repairPhase k v w rest with ⟨a, c⟩
  simp [repairPhase, h]

lemma repairPhase_cons_some {k : Bytes} {v : Int} {w : Option Bytes} {db : DB}
    {rest : List (Option DB)} :
    repairPhase k v w (some db :: rest) =
      (some (repairStep k v w db).1 :: (repairPhase k v w rest).1,
       1 + (repairPhase k v w rest).2) := by
  rcases h : repairPhase k v w rest with ⟨a, c⟩
  rcases hs : repairStep k v w db with ⟨db1, ok⟩
  have hok : ok = true := by
    have := repairStep_flag k v w db
    rw [hs] at this
    exact this
  subst hok
  simp [repairPhase, h, hs]

lemma repairPhase_count (k : Bytes) (v : Int) (w : Option Bytes)
    (dbs : List (Option DB)) :
    (repairPhase k v w dbs).2 = aliveCount dbs := by
  induction dbs with
  | nil => rfl
  | cons odb rest ih =>
    rcases odb with _ | db
    · rw [repairPhase_cons_none]
      unfold aliveCount at ih ⊢
      rw [List.countP_cons]
      simp [ih]
    · rw [repairPhase_cons_some]
      unfold aliveCount at ih ⊢
      rw [List.countP_cons]
      simp [ih]
      omega

/-- Counterexample to claim C8 as stated.  With three replicas all failing
the call, zero replicas respond — fewer than the quorum of 2 — yet `read`
returns `not-found`, not `no-quorum`: the version-discovery loop performs no
responder count at all. -/
theorem read_notFound_without_quorum :
    (readKV 2 [1] [none, none, none]).1 = .notFound ∧
    aliveCount [none, none, none] < 2 ∧
    (readKV 2 [1] [none, none, none]).1 ≠ .noQuorum (aliveCount [none, none, none]) := by
  decide

/-- Claim C8 as amended.  `read` returns `not-found` exactly when the
version-discovery scan saw no learned row (whether replicas failed or simply
hold nothing) — no responder-count check guards it; when some replica did
report a learned version, `read` returns `no-quorum` with the number of
responding replicas whenever that number is below the quorum. -/
theorem readKV_outcomes (q : Nat) (k : Bytes) (dbs : List (Option DB)) :
    ((readKV q k dbs).1 = .notFound ↔ (scanPhase k dbs).1 = 0) ∧
    ((scanPhase k dbs).1 ≠ 0 → aliveCount dbs < q →
      (readKV q k dbs).1 = .noQuorum (aliveCount dbs)) := by
  rcases hs : scanPhase k dbs with ⟨v, w⟩
  unfold readKV
  rw [hs]
  dsimp only
  by_cases hv : v = 0
  · rw [if_pos hv]
    exact ⟨⟨fun _ => hv, fun _ => rfl⟩, fun hne _ => absurd hv hne⟩
  · rw [if_neg hv]
    rcases hr : repairPhase k v w dbs with ⟨dbs1, c⟩
    have hc : c = aliveCount dbs := by
      have := repairPhase_count k v w dbs
      rw [hr] at this
      exact this
    dsimp only
    constructor
    · by_cases hcq : c < q
      · rw [if_pos hcq]
        exact ⟨fun h => absurd h (by simp), fun h => absurd h hv⟩
      · rw [if_neg hcq]
        exact ⟨fun h => absurd h (by simp), fun h => absurd h hv⟩
    · intro _ halive
      rw [← hc] at halive
      rw [if_pos halive, hc]

/-- Witness for `readKV_outcomes`: one live replica with a learned row, two
dead ones — below quorum, so `no-quorum 1`. -/
theorem readKV_outcomes_witness :
    (readKV 2 [1] [some [⟨[1], 1, none, none, some [5]⟩], none, none]).1 = .noQuorum 1 := by
  have h := (readKV_outcomes 2 [1] [some [⟨[1], 1, none, none, some [5]⟩], none, none]).2
    (by decide) (by decide)
  exact h.trans (by decide)

/-! ## Read-repair leaves up-to-date replicas untouched (claim C10) -/

lemma repairPhase_getElem (k : Bytes) (v : Int) (w : Option Bytes)
    (dbs : List (Option DB)) (i : Nat) :
    (repairPhase k v w dbs).1[i]? =
      (dbs[i]?).map (Option.map fun db => (repairStep k v w db).1) := by
  induction dbs generalizing i with
  | nil => simp [repairPhase]
  | cons odb rest ih =>
    rcases odb with _ | db
    · rw [repairPhase_cons_none]
      rcases i with _ | i
      · simp
      · simpa using ih i
    · rw [repairPhase_cons_some]
      rcases i with _ | i
      · simp
      · simpa using ih i

/-- Claim C10.  During read-repair, a live replica that already holds the
learned row at the cluster maximum `V*` receives no write at all: the repair
step returns its table unchanged (and counts it), so the final replica list
of `get` carries it verbatim; the delete-and-insert repair transaction is
applied only to replicas that do not hold the learned `(key, V*)` row (those
that reported a lower version, reported nothing, or failed the query). -/
theorem readKV_repair_frame (q : Nat) (k : Bytes) (dbs : List (Option DB)) (i : Nat)
    (db : DB) (v : Int) (w : Option Bytes)
    (hs : scanPhase k dbs = (v, w)) (hv : v ≠ 0)
    (hi : dbs[i]? = some (some db)) (hwf : wfDB db) :
    ((∃ r ∈ db, learnedAt k v r = true) →
      repairStep k v w db = (db, true) ∧
      (readKV q k dbs).2[i]? = some (some db)) ∧
    ((¬ ∃ r ∈ db, learnedAt k v r = true) →
      repairStep k v w db =
        ((db.filter fun r => !(r.key == k && decide (r.version ≤ v))) ++
          [⟨k, v, none, none, w⟩], true)) := by
  have hp : ∀ r, learnedAt k v r = true → r.key = k ∧ r.version = v := fun r h =>
    ⟨(learnedAt_iff.1 h).1, (learnedAt_iff.1 h).2.1⟩
  have hout : (readKV q k dbs).2 = (repairPhase k v w dbs).1 := by
    unfold readKV
    rw [hs]
    dsimp only
    rw [if_neg hv]
    rcases hr : repairPhase k v w dbs with ⟨dbs1, c⟩
    dsimp only
    by_cases hcq : c < q
    · rw [if_pos hcq]
    · rw [if_neg hcq]
  constructor
  · intro hex
    have hone : db.countP (learnedAt k v) = 1 := (countP_eq_one_iff hwf hp).2 hex
    have hrs : repairStep k v w db = (db, true) := by
      unfold repairStep
      rw [if_pos (by simp [hone])]
    refine ⟨hrs, ?_⟩
    rw [hout, repairPhase_getElem, hi]
    simp [hrs]
  · intro hnex
    have hzero : db.countP (learnedAt k v) = 0 :=
      List.countP_eq_zero.2 fun r hr hc => hnex ⟨r, hr, hc⟩
    unfold repairStep
    rw [if_neg (by simp [hzero])]

/-- Witness for `readKV_repair_frame`: the replica holding the learned row at
the maximum version comes back from `get` byte-for-byte unchanged. -/
theorem readKV_repair_frame_witness :
    repairStep [1] 1 (some [5]) [⟨[1], 1, none, none, some [5]⟩] =
      ([⟨[1], 1, none, none, some [5]⟩], true) ∧
    (readKV 2 [1] [some [⟨[1], 1, none, none, some [5]⟩], some [], none]).2[0]? =
      some (some [⟨[1], 1, none, none, some [5]⟩]) :=
  (readKV_repair_frame 2 [1] [some [⟨[1], 1, none, none, some [5]⟩], some [], none] 0
    [⟨[1], 1, none, none, some [5]⟩] 1 (some [5])
    (by decide) (by decide) (by decide) (by decide)).1 (by decide)

/-! ## The learned-value agreement claim (C1): counterexample -/

/-- Counterexample to claim C1 as stated.  A reachable sequence of complete
`paxos` rounds (one interleaving of Promise/Accept/Learn steps) ends with two
replicas in LEARNED state on key `[1]`, version `1`, holding different
values.  The run: all three replicas learn `([1], 1, [7])`; with replica 0
partitioned, a round at version 2 learns on replicas 1 and 2 — its Learn
phase garbage-collects their `([1], 1)` rows; still without replica 0, a new
round at version 1 then finds no trace of the old decision and learns `[9]`
on replicas 1 and 2, while replica 0 still holds the LEARNED value `[7]`. -/
theorem paxos_learned_values_diverge :
    ∃ dbs : List DB, ReachDB 2 3 dbs ∧
      ∃ d1 ∈ dbs, ∃ d2 ∈ dbs, ∃ r1 ∈ d1, ∃ r2 ∈ d2,
        learnedAt [1] 1 r1 = true ∧ learnedAt [1] 1 r2 = true ∧
        r1.value ≠ r2.value := by
  refine ⟨_, ReachDB.put _ [false, true, true] [1] 1 [9] 300
      (ReachDB.put _ [false, true, true] [1] 2 [8] 200
        (ReachDB.put _ [true, true, true] [1] 1 [7] 100 ReachDB.init (by decide))
        (by decide))
      (by decide), ?_⟩
  decide

/-! ## The learned-value agreement claim (C1): safety of the protocol proper

The invariant proof for the transition system.  Throughout, `q` is the quorum
size and `n < 2*q` states that any two quorums intersect.
-/

lemma props_lookup_set_self {α : Type} (l : List α) (i : Nat) (a : α)
    (h : i < l.length) : (l.set i a)[i]? = some a := by
  rw [List.getElem?_set_self', List.getElem?_eq_getElem h]
  rfl

lemma props_lookup_set {α : Type} {l : List α} {i : Nat} {a : α} {j : Nat} {b : α}
    (h : (l.set i a)[j]? = some b) :
    (j = i ∧ b = a ∧ j < l.length) ∨ (j ≠ i ∧ l[j]? = some b) := by
  by_cases hji : j = i
  · subst hji
    rw [List.getElem?_set_self'] at h
    rcases hlt : l[j]? with _ | c
    · rw [hlt] at h
      simp at h
    · rw [hlt] at h
      simp at h
      exact Or.inl ⟨rfl, h.symm, (List.getElem?_eq_some.1 hlt).1⟩
  · rw [List.getElem?_set_ne (Ne.symm hji)] at h
    exact Or.inr ⟨hji, h⟩

lemma quorum_intersect {n q : Nat} (hq : n < 2 * q) (Q P : Finset (Fin n))
    (hQ : q ≤ Q.card) (hP : q ≤ P.card) : ∃ r, r ∈ Q ∧ r ∈ P := by
  by_contra h
  push_neg at h
  have hdisj : Disjoint Q P := Finset.disjoint_left.2 h
  have hcard := Finset.card_union_of_disjoint hdisj
  have hle := Finset.card_le_univ (Q ∪ P)
  rw [Fintype.card_fin] at hle
  omega

lemma chosen_mono {n q : Nat} {σ σ' : GState n} (h : ∀ r, σ.votes r ⊆ σ'.votes r)
    {s : Nat} : chosen q σ s → chosen q σ' s := by
  rintro ⟨Q, hQ, hall⟩
  exact ⟨Q, hQ, fun r hr => (hall r hr).imp fun w hw => h r hw⟩

lemma inv_seq_pos_of_propRec {n q : Nat} {σ : GState n} (hq1 : 1 ≤ q)
    (hinv : Inv q σ) {s i : Nat} {w : Option Bytes}
    (h : (s, i, w) ∈ σ.propRec) : 1 ≤ s := by
  obtain ⟨P, hP, hall⟩ := hinv.propQuorum s i w h
  have hpos : 0 < P.card := by omega
  obtain ⟨r, hr⟩ := Finset.card_pos.1 hpos
  exact hinv.promSeqPos r s i (hall r hr)

lemma inv_vote_pos {n q : Nat} {σ : GState n} (hq1 : 1 ≤ q) (hinv : Inv q σ)
    {r : Fin n} {s : Nat} {w : Option Bytes} (h : (s, w) ∈ σ.votes r) : 1 ≤ s := by
  obtain ⟨i, hi⟩ := hinv.voteSafe r s w h
  exact inv_seq_pos_of_propRec hq1 hinv hi

lemma inv_vote_value_unique {n q : Nat} {σ : GState n} (hinv : Inv q σ)
    {r r' : Fin n} {s : Nat} {w w' : Option Bytes}
    (h : (s, w) ∈ σ.votes r) (h' : (s, w') ∈ σ.votes r') : w = w' := by
  obtain ⟨i, hi⟩ := hinv.voteSafe r s w h
  obtain ⟨j, hj⟩ := hinv.voteSafe r' s w' h'
  exact (hinv.propUnique s i w j w' hi hj).2

lemma inv_init {n : Nat} (q : Nat) : Inv q (initState n) := by
  constructor <;> (intros; simp_all [initState, chosen, leftRnd])

lemma props_lookup_append {α : Type} {l : List α} {x : α} {j : Nat} {b : α}
    (h : (l ++ [x])[j]? = some b) : l[j]? = some b ∨ (b = x ∧ j = l.length) := by
  by_cases hj : j < l.length
  · rw [List.getElem?_append, if_pos hj] at h
    exact Or.inl h
  · right
    push_neg at hj
    rw [List.getElem?_append_right hj] at h
    have hlt : j - l.length < 1 := by
      by_contra hge
      push_neg at hge
      rw [List.getElem?_eq_none (by simpa using hge)] at h
      exact Option.noConfusion h
    have hj0 : j - l.length = 0 := by omega
    rw [hj0] at h
    simp at h
    exact ⟨h.symm, by omega⟩

lemma props_lookup_of_lt {α : Type} {l : List α} (x : α) {j : Nat} {b : α}
    (h : l[j]? = some b) : (l ++ [x])[j]? = some b := by
  rw [List.getElem?_append, if_pos (List.getElem?_eq_some.1 h).1]
  exact h

lemma inv_start {n : Nat} {q : Nat} {σ : GState n} (hinv : Inv q σ)
    (s : Nat) (c : Bytes) :
    Inv q { σ with props := σ.props ++ [⟨s, c, .promising ∅ []⟩] } := by
  refine
    { cellPA := hinv.cellPA
      cellLearned := hinv.cellLearned
      cellVote := hinv.cellVote
      voteUB := hinv.voteUB
      voteCell := hinv.voteCell
      promCell := hinv.promCell
      promSeqPos := hinv.promSeqPos
      promUnique := hinv.promUnique
      promTally := ?_
      propQuorum := hinv.propQuorum
      propUnique := hinv.propUnique
      propPhase := ?_
      accState := ?_
      learnState := ?_
      voteSafe := hinv.voteSafe
      adopt := hinv.adopt }
  · intro i p vis t hp hph
    rcases props_lookup_append hp with hp' | ⟨rfl, rfl⟩
    · exact hinv.promTally i p vis t hp' hph
    · simp only at hph
      rcases hph
      simp
  · intro s' i w hmem
    obtain ⟨p, hp, hrest⟩ := hinv.propPhase s' i w hmem
    exact ⟨p, props_lookup_of_lt _ hp, hrest⟩
  · intro i p vis pr acc hp hph
    rcases props_lookup_append hp with hp' | ⟨rfl, rfl⟩
    · exact hinv.accState i p vis pr acc hp' hph
    · exact Phase.noConfusion hph
  · intro i p vis pr lrn hp hph
    rcases props_lookup_append hp with hp' | ⟨rfl, rfl⟩
    · exact hinv.learnState i p vis pr lrn hp' hph
    · exact Phase.noConfusion hph

lemma props_lookup_set_other {α : Type} (l : List α) (i : Nat) (a : α) (j : Nat)
    (h : j ≠ i) : (l.set i a)[j]? = l[j]? :=
  List.getElem?_set_ne (Ne.symm h)

lemma inv_halt {n : Nat} {q : Nat} {σ : GState n} (hinv : Inv q σ)
    (i : Nat) (p : Proposer n) (hp : σ.props[i]? = some p) :
    Inv q { σ with props := σ.props.set i { p with phase := .halted } } := by
  refine
    { cellPA := hinv.cellPA
      cellLearned := hinv.cellLearned
      cellVote := hinv.cellVote
      voteUB := hinv.voteUB
      voteCell := hinv.voteCell
      promCell := hinv.promCell
      promSeqPos := hinv.promSeqPos
      promUnique := hinv.promUnique
      promTally := ?_
      propQuorum := hinv.propQuorum
      propUnique := hinv.propUnique
      propPhase := ?_
      accState := ?_
      learnState := ?_
      voteSafe := hinv.voteSafe
      adopt := hinv.adopt }
  · intro j pj vis t hj hph
    rcases props_lookup_set hj with ⟨rfl, rfl, _⟩ | ⟨hne, hj'⟩
    · exact Phase.noConfusion hph
    · exact hinv.promTally j pj vis t hj' hph
  · intro s' j w hmem
    obtain ⟨pj, hpj, hseq, hnp, hacc, hlrn⟩ := hinv.propPhase s' j w hmem
    by_cases hji : j = i
    · subst hji
      have heq : pj = p := by
        rw [hp] at hpj
        exact (Option.some_inj.1 hpj).symm
      refine ⟨{ p with phase := .halted },
        props_lookup_set_self _ _ _ (List.getElem?_eq_some.1 hp).1, ?_, ?_, ?_, ?_⟩
      · rw [← hseq, heq]
      · intro vis t h
        exact Phase.noConfusion h
      · intro vis pr acc h
        exact Phase.noConfusion h
      · intro vis pr lrn h
        exact Phase.noConfusion h
    · refine ⟨pj, ?_, hseq, hnp, hacc, hlrn⟩
      rw [props_lookup_set_other _ _ _ _ hji]
      exact hpj
  · intro j pj vis pr acc hj hph
    rcases props_lookup_set hj with ⟨rfl, rfl, _⟩ | ⟨hne, hj'⟩
    · exact Phase.noConfusion hph
    · exact hinv.accState j pj vis pr acc hj' hph
  · intro j pj vis pr lrn hj hph
    rcases props_lookup_set hj with ⟨rfl, rfl, _⟩ | ⟨hne, hj'⟩
    · exact Phase.noConfusion hph
    · exact hinv.learnState j pj vis pr lrn hj' hph

lemma inv_promise_skip {n : Nat} {q : Nat} {σ : GState n} (hinv : Inv q σ)
    (i : Nat) (p : Proposer n) (vis : Finset (Fin n))
    (t : List (Fin n × Option Nat × Option Bytes)) (r : Fin n)
    (hp : σ.props[i]? = some p) (hph : p.phase = .promising vis t) :
    Inv q { σ with props := σ.props.set i { p with phase := .promising (insert r vis) t } } := by
  refine
    { cellPA := hinv.cellPA
      cellLearned := hinv.cellLearned
      cellVote := hinv.cellVote
      voteUB := hinv.voteUB
      voteCell := hinv.voteCell
      promCell := hinv.promCell
      promSeqPos := hinv.promSeqPos
      promUnique := hinv.promUnique
      promTally := ?_
      propQuorum := hinv.propQuorum
      propUnique := hinv.propUnique
      propPhase := ?_
      accState := ?_
      learnState := ?_
      voteSafe := hinv.voteSafe
      adopt := hinv.adopt }
  · intro j pj vis' t' hj hph'
    rcases props_lookup_set hj with ⟨rfl, rfl, _⟩ | ⟨hne, hj'⟩
    · simp only at hph'
      cases hph'
      obtain ⟨hnd, hsub, hfacts⟩ := hinv.promTally j p vis t hp hph
      exact ⟨hnd, fun e he => Finset.mem_insert_of_mem (hsub e he), hfacts⟩
    · exact hinv.promTally j pj vis' t' hj' hph'
  · intro s' j w hmem
    obtain ⟨pj, hpj, hseq, hnp, hacc, hlrn⟩ := hinv.propPhase s' j w hmem
    by_cases hji : j = i
    · subst hji
      exfalso
      have heq : pj = p := by
        rw [hp] at hpj
        exact (Option.some_inj.1 hpj).symm
      exact hnp vis t (by rw [heq]; exact hph)
    · refine ⟨pj, ?_, hseq, hnp, hacc, hlrn⟩
      rw [props_lookup_set_other _ _ _ _ hji]
      exact hpj
  · intro j pj vis' pr acc hj hph'
    rcases props_lookup_set hj with ⟨rfl, rfl, _⟩ | ⟨hne, hj'⟩
    · exact Phase.noConfusion hph'
    · exact hinv.accState j pj vis' pr acc hj' hph'
  · intro j pj vis' pr lrn hj hph'
    rcases props_lookup_set hj with ⟨rfl, rfl, _⟩ | ⟨hne, hj'⟩
    · exact Phase.noConfusion hph'
    · exact hinv.learnState j pj vis' pr lrn hj' hph'

lemma inv_toLearn {n : Nat} {q : Nat} {σ : GState n} (hinv : Inv q σ)
    (i : Nat) (p : Proposer n) (vis : Finset (Fin n)) (pr : Nat × Option Bytes)
    (acc : Finset (Fin n))
    (hp : σ.props[i]? = some p) (hph : p.phase = .accepting vis pr acc)
    (hqa : q ≤ acc.card) :
    Inv q { σ with props := σ.props.set i { p with phase := .learning ∅ pr ∅ } } := by
  have haccst := hinv.accState i p vis pr acc hp hph
  have hchosen : chosen q σ p.seq := ⟨acc, hqa, fun r hr => ⟨pr.2, haccst.2 r hr⟩⟩
  refine
    { cellPA := hinv.cellPA
      cellLearned := hinv.cellLearned
      cellVote := hinv.cellVote
      voteUB := hinv.voteUB
      voteCell := hinv.voteCell
      promCell := hinv.promCell
      promSeqPos := hinv.promSeqPos
      promUnique := hinv.promUnique
      promTally := ?_
      propQuorum := hinv.propQuorum
      propUnique := hinv.propUnique
      propPhase := ?_
      accState := ?_
      learnState := ?_
      voteSafe := hinv.voteSafe
      adopt := hinv.adopt }
  · intro j pj vis' t' hj hph'
    rcases props_lookup_set hj with ⟨rfl, rfl, _⟩ | ⟨hne, hj'⟩
    · exact Phase.noConfusion hph'
    · exact hinv.promTally j pj vis' t' hj' hph'
  · intro s' j w hmem
    obtain ⟨pj, hpj, hseq, hnp, hacc, hlrn⟩ := hinv.propPhase s' j w hmem
    by_cases hji : j = i
    · subst hji
      have heq : pj = p := by
        rw [hp] at hpj
        exact (Option.some_inj.1 hpj).symm
      refine ⟨{ p with phase := .learning ∅ pr ∅ },
        props_lookup_set_self _ _ _ (List.getElem?_eq_some.1 hp).1, ?_, ?_, ?_, ?_⟩
      · rw [← hseq, heq]
      · intro vis' t' h
        exact Phase.noConfusion h
      · intro vis' pr' acc' h
        exact Phase.noConfusion h
      · intro vis' pr' lrn' h
        simp only at h
        cases h
        exact hacc vis pr acc (by rw [heq]; exact hph)
    · refine ⟨pj, ?_, hseq, hnp, hacc, hlrn⟩
      rw [props_lookup_set_other _ _ _ _ hji]
      exact hpj
  · intro j pj vis' pr' acc' hj hph'
    rcases props_lookup_set hj with ⟨rfl, rfl, _⟩ | ⟨hne, hj'⟩
    · exact Phase.noConfusion hph'
    · exact hinv.accState j pj vis' pr' acc' hj' hph'
  · intro j pj vis' pr' lrn' hj hph'
    rcases props_lookup_set hj with ⟨rfl, rfl, _⟩ | ⟨hne, hj'⟩
    · simp only at hph'
      cases hph'
      exact ⟨haccst.1, hchosen⟩
    · exact hinv.learnState j pj vis' pr' lrn' hj' hph'

lemma inv_accept_miss {n : Nat} {q : Nat} {σ : GState n} (hinv : Inv q σ)
    (i : Nat) (p : Proposer n) (vis : Finset (Fin n)) (pr : Nat × Option Bytes)
    (acc : Finset (Fin n)) (r : Fin n)
    (hp : σ.props[i]? = some p) (hph : p.phase = .accepting vis pr acc) :
    Inv q { σ with
      props := σ.props.set i { p with phase := .accepting (insert r vis) pr acc } } := by
  refine
    { cellPA := hinv.cellPA
      cellLearned := hinv.cellLearned
      cellVote := hinv.cellVote
      voteUB := hinv.voteUB
      voteCell := hinv.voteCell
      promCell := hinv.promCell
      promSeqPos := hinv.promSeqPos
      promUnique := hinv.promUnique
      promTally := ?_
      propQuorum := hinv.propQuorum
      propUnique := hinv.propUnique
      propPhase := ?_
      accState := ?_
      learnState := ?_
      voteSafe := hinv.voteSafe
      adopt := hinv.adopt }
  · intro j pj vis' t' hj hph'
    rcases props_lookup_set hj with ⟨rfl, rfl, _⟩ | ⟨hne, hj'⟩
    · exact Phase.noConfusion hph'
    · exact hinv.promTally j pj vis' t' hj' hph'
  · intro s' j w hmem
    obtain ⟨pj, hpj, hseq, hnp, hacc, hlrn⟩ := hinv.propPhase s' j w hmem
    by_cases hji : j = i
    · subst hji
      have heq : pj = p := by
        rw [hp] at hpj
        exact (Option.some_inj.1 hpj).symm
      refine ⟨{ p with phase := .accepting (insert r vis) pr acc },
        props_lookup_set_self _ _ _ (List.getElem?_eq_some.1 hp).1, ?_, ?_, ?_, ?_⟩
      · rw [← hseq, heq]
      · intro vis' t' h
        exact Phase.noConfusion h
      · intro vis' pr' acc' h
        simp only at h
        cases h
        exact hacc vis pr acc (by rw [heq]; exact hph)
      · intro vis' pr' lrn' h
        exact Phase.noConfusion h
    · refine ⟨pj, ?_, hseq, hnp, hacc, hlrn⟩
      rw [props_lookup_set_other _ _ _ _ hji]
      exact hpj
  · intro j pj vis' pr' acc' hj hph'
    rcases props_lookup_set hj with ⟨rfl, rfl, _⟩ | ⟨hne, hj'⟩
    · simp only at hph'
      cases hph'
      exact hinv.accState j p vis pr acc hp hph
    · exact hinv.accState j pj vis' pr' acc' hj' hph'
  · intro j pj vis' pr' lrn' hj hph'
    rcases props_lookup_set hj with ⟨rfl, rfl, _⟩ | ⟨hne, hj'⟩
    · exact Phase.noConfusion hph'
    · exact hinv.learnState j pj vis' pr' lrn' hj' hph'

lemma inv_learn_miss {n : Nat} {q : Nat} {σ : GState n} (hinv : Inv q σ)
    (i : Nat) (p : Proposer n) (vis : Finset (Fin n)) (pr : Nat × Option Bytes)
    (lrn : Finset (Fin n)) (r : Fin n)
    (hp : σ.props[i]? = some p) (hph : p.phase = .learning vis pr lrn) :
    Inv q { σ with
      props := σ.props.set i { p with phase := .learning (insert r vis) pr lrn } } := by
  refine
    { cellPA := hinv.cellPA
      cellLearned := hinv.cellLearned
      cellVote := hinv.cellVote
      voteUB := hinv.voteUB
      voteCell := hinv.voteCell
      promCell := hinv.promCell
      promSeqPos := hinv.promSeqPos
      promUnique := hinv.promUnique
      promTally := ?_
      propQuorum := hinv.propQuorum
      propUnique := hinv.propUnique
      propPhase := ?_
      accState := ?_
      learnState := ?_
      voteSafe := hinv.voteSafe
      adopt := hinv.adopt }
  · intro j pj vis' t' hj hph'
    rcases props_lookup_set hj with ⟨rfl, rfl, _⟩ | ⟨hne, hj'⟩
    · exact Phase.noConfusion hph'
    · exact hinv.promTally j pj vis' t' hj' hph'
  · intro s' j w hmem
    obtain ⟨pj, hpj, hseq, hnp, hacc, hlrn⟩ := hinv.propPhase s' j w hmem
    by_cases hji : j = i
    · subst hji
      have heq : pj = p := by
        rw [hp] at hpj
        exact (Option.some_inj.1 hpj).symm
      refine ⟨{ p with phase := .learning (insert r vis) pr lrn },
        props_lookup_set_self _ _ _ (List.getElem?_eq_some.1 hp).1, ?_, ?_, ?_, ?_⟩
      · rw [← hseq, heq]
      · intro vis' t' h
        exact Phase.noConfusion h
      · intro vis' pr' acc' h
        exact Phase.noConfusion h
      · intro vis' pr' lrn' h
        simp only at h
        cases h
        exact hlrn vis pr lrn (by rw [heq]; exact hph)
    · refine ⟨pj, ?_, hseq, hnp, hacc, hlrn⟩
      rw [props_lookup_set_other _ _ _ _ hji]
      exact hpj
  · intro j pj vis' pr' acc' hj hph'
    rcases props_lookup_set hj with ⟨rfl, rfl, _⟩ | ⟨hne, hj'⟩
    · exact Phase.noConfusion hph'
    · exact hinv.accState j pj vis' pr' acc' hj' hph'
  · intro j pj vis' pr' lrn' hj hph'
    rcases props_lookup_set hj with ⟨rfl, rfl, _⟩ | ⟨hne, hj'⟩
    · simp only at hph'
      cases hph'
      exact hinv.learnState j p vis pr lrn hp hph
    · exact hinv.learnState j pj vis' pr' lrn' hj' hph'

lemma inv_ensure_row {n : Nat} {q : Nat} {σ : GState n} (hinv : Inv q σ)
    (r : Fin n) (hc : σ.cells r = none) :
    Inv q { σ with
      cells := Function.update σ.cells r (some ⟨some 0, some 0, none⟩) } := by
  have hvotes : ∀ s w, (s, w) ∉ σ.votes r := by
    intro s w hv
    obtain ⟨c, hc'⟩ := hinv.voteCell r s w hv
    rw [hc] at hc'
    exact Option.noConfusion hc'
  have hprom : ∀ s i, (s, i) ∉ σ.promRec r := by
    intro s i hpr
    obtain ⟨c, hc', _⟩ := hinv.promCell r s i hpr
    rw [hc] at hc'
    exact Option.noConfusion hc'
  refine
    { cellPA := ?_
      cellLearned := ?_
      cellVote := ?_
      voteUB := ?_
      voteCell := ?_
      promCell := ?_
      promSeqPos := hinv.promSeqPos
      promUnique := hinv.promUnique
      promTally := hinv.promTally
      propQuorum := hinv.propQuorum
      propUnique := hinv.propUnique
      propPhase := hinv.propPhase
      accState := hinv.accState
      learnState := hinv.learnState
      voteSafe := hinv.voteSafe
      adopt := ?_ }
  · intro r' c pv h hpv
    dsimp only at h
    by_cases hr : r' = r
    · subst hr
      rw [Function.update_same] at h
      cases Option.some_inj.1 h
      simp only at hpv
      exact ⟨0, rfl, by cases Option.some_inj.1 hpv; exact le_refl 0⟩
    · rw [Function.update_noteq hr] at h
      exact hinv.cellPA r' c pv h hpv
  · intro r' c h hpn
    dsimp only at h
    by_cases hr : r' = r
    · subst hr
      rw [Function.update_same] at h
      cases Option.some_inj.1 h
      exact Option.noConfusion hpn
    · rw [Function.update_noteq hr] at h
      exact hinv.cellLearned r' c h hpn
  · intro r' c a h hac hpos
    dsimp only at h
    by_cases hr : r' = r
    · subst hr
      rw [Function.update_same] at h
      cases Option.some_inj.1 h
      simp only at hac
      cases Option.some_inj.1 hac
      omega
    · rw [Function.update_noteq hr] at h
      exact hinv.cellVote r' c a h hac hpos
  · intro r' c a h hac s w hv
    dsimp only at h hv
    by_cases hr : r' = r
    · subst hr
      exact absurd hv (hvotes s w)
    · rw [Function.update_noteq hr] at h
      exact hinv.voteUB r' c a h hac s w hv
  · intro r' s w hv
    dsimp only at hv ⊢
    by_cases hr : r' = r
    · subst hr
      exact ⟨⟨some 0, some 0, none⟩, Function.update_same _ _ _⟩
    · obtain ⟨c, hc'⟩ := hinv.voteCell r' s w hv
      exact ⟨c, by rw [Function.update_noteq hr]; exact hc'⟩
  · intro r' s i hpr
    dsimp only at hpr ⊢
    by_cases hr : r' = r
    · subst hr
      exact absurd hpr (hprom s i)
    · obtain ⟨c, hc', hrest⟩ := hinv.promCell r' s i hpr
      exact ⟨c, by rw [Function.update_noteq hr]; exact hc', hrest⟩
  · intro s2 i2 w2 hmem s1 hlt w1 hne Q hQ
    dsimp only at hmem
    obtain ⟨r', hr', hleft, hnv⟩ := hinv.adopt s2 i2 w2 hmem s1 hlt w1 hne Q hQ
    refine ⟨r', hr', ?_, hnv⟩
    obtain ⟨c, hcc, hrest⟩ := hleft
    have hr : r' ≠ r := by
      intro h
      rw [h, hc] at hcc
      exact Option.noConfusion hcc
    refine ⟨c, ?_, hrest⟩
    show Function.update σ.cells r (some ⟨some 0, some 0, none⟩) r' = some c
    rw [Function.update_noteq hr]
    exact hcc

lemma inv_promise_write {n : Nat} {q : Nat} {σ : GState n} (hinv : Inv q σ)
    (i : Nat) (p : Proposer n) (vis : Finset (Fin n))
    (t : List (Fin n × Option Nat × Option Bytes)) (r : Fin n) (c : Cell) (pv : Nat)
    (hp : σ.props[i]? = some p) (hph : p.phase = .promising vis t) (hrv : r ∉ vis)
    (hc : σ.cells r = some c) (hcp : c.promised = some pv) (hlt : pv < p.seq) :
    Inv q { σ with
      cells := Function.update σ.cells r (some { c with promised := some p.seq })
      props := σ.props.set i
        { p with phase := .promising (insert r vis) (t ++ [(r, c.accepted, c.value)]) }
      promRec := Function.update σ.promRec r (insert (p.seq, i) (σ.promRec r)) } := by
  obtain ⟨a0, hca, hale⟩ := hinv.cellPA r c pv hc hcp
  have hnotold : ∀ j, (p.seq, j) ∉ σ.promRec r := by
    intro j hj
    obtain ⟨c0, hc0, hr0⟩ := hinv.promCell r p.seq j hj
    rw [hc] at hc0
    cases Option.some_inj.1 hc0
    rcases hr0 with h0 | ⟨pv', hpv', hle'⟩
    · rw [hcp] at h0
      exact Option.noConfusion h0
    · rw [hcp] at hpv'
      cases Option.some_inj.1 hpv'
      omega
  have hpromRec : ∀ r'' s' j, (s', j) ∈ σ.promRec r'' →
      (s', j) ∈ (Function.update σ.promRec r (insert (p.seq, i) (σ.promRec r))) r'' := by
    intro r'' s' j hj
    by_cases hrr : r'' = r
    · subst hrr
      rw [Function.update_same]
      exact Finset.mem_insert_of_mem hj
    · rw [Function.update_noteq hrr]
      exact hj
  refine
    { cellPA := ?_
      cellLearned := ?_
      cellVote := ?_
      voteUB := ?_
      voteCell := ?_
      promCell := ?_
      promSeqPos := ?_
      promUnique := ?_
      promTally := ?_
      propQuorum := ?_
      propUnique := hinv.propUnique
      propPhase := ?_
      accState := ?_
      learnState := ?_
      voteSafe := hinv.voteSafe
      adopt := ?_ }
  · intro r' c' pv' h hpv
    dsimp only at h
    by_cases hr : r' = r
    · subst hr
      rw [Function.update_same] at h
      cases Option.some_inj.1 h
      simp only at hpv
      cases Option.some_inj.1 hpv
      exact ⟨a0, hca, by omega⟩
    · rw [Function.update_noteq hr] at h
      exact hinv.cellPA r' c' pv' h hpv
  · intro r' c' h hpn
    dsimp only at h
    by_cases hr : r' = r
    · subst hr
      rw [Function.update_same] at h
      cases Option.some_inj.1 h
      exact Option.noConfusion hpn
    · rw [Function.update_noteq hr] at h
      exact hinv.cellLearned r' c' h hpn
  · intro r' c' a h hac hpos
    dsimp only at h hac ⊢
    by_cases hr : r' = r
    · subst hr
      rw [Function.update_same] at h
      cases Option.some_inj.1 h
      simp only at hac
      exact hinv.cellVote r' c a hc hac hpos
    · rw [Function.update_noteq hr] at h
      exact hinv.cellVote r' c' a h hac hpos
  · intro r' c' a h hac s w hv
    dsimp only at h hac hv
    by_cases hr : r' = r
    · subst hr
      rw [Function.update_same] at h
      cases Option.some_inj.1 h
      simp only at hac
      exact hinv.voteUB r' c a hc hac s w hv
    · rw [Function.update_noteq hr] at h
      exact hinv.voteUB r' c' a h hac s w hv
  · intro r' s w hv
    dsimp only at hv ⊢
    by_cases hr : r' = r
    · subst hr
      exact ⟨{ c with promised := some p.seq }, Function.update_same _ _ _⟩
    · obtain ⟨c', hc'⟩ := hinv.voteCell r' s w hv
      exact ⟨c', by rw [Function.update_noteq hr]; exact hc'⟩
  · intro r' s' j hpr
    dsimp only at hpr ⊢
    by_cases hr : r' = r
    · subst hr
      rw [Function.update_same] at hpr
      rcases Finset.mem_insert.1 hpr with h | h
      · cases h
        exact ⟨{ c with promised := some p.seq }, Function.update_same _ _ _,
          Or.inr ⟨p.seq, rfl, le_refl _⟩⟩
      · obtain ⟨c0, hc0, hr0⟩ := hinv.promCell r' s' j h
        rw [hc] at hc0
        cases Option.some_inj.1 hc0
        refine ⟨{ c with promised := some p.seq }, Function.update_same _ _ _, ?_⟩
        rcases hr0 with h0 | ⟨pv', hpv', hle'⟩
        · rw [hcp] at h0
          exact Option.noConfusion h0
        · rw [hcp] at hpv'
          cases Option.some_inj.1 hpv'
          exact Or.inr ⟨p.seq, rfl, by omega⟩
    · rw [Function.update_noteq hr] at hpr
      obtain ⟨c0, hc0, hr0⟩ := hinv.promCell r' s' j hpr
      exact ⟨c0, by rw [Function.update_noteq hr]; exact hc0, hr0⟩
  · intro r' s' j hpr
    dsimp only at hpr
    by_cases hr : r' = r
    · subst hr
      rw [Function.update_same] at hpr
      rcases Finset.mem_insert.1 hpr with h | h
      · cases h
        omega
      · exact hinv.promSeqPos r' s' j h
    · rw [Function.update_noteq hr] at hpr
      exact hinv.promSeqPos r' s' j hpr
  · intro r' s' j j' h1 h2
    dsimp only at h1 h2
    by_cases hr : r' = r
    · subst hr
      rw [Function.update_same] at h1 h2
      rcases Finset.mem_insert.1 h1 with h1 | h1 <;>
        rcases Finset.mem_insert.1 h2 with h2 | h2
      · cases h1
        cases h2
        rfl
      · cases h1
        exact absurd h2 (hnotold j')
      · cases h2
        exact absurd h1 (hnotold j)
      · exact hinv.promUnique r' s' j j' h1 h2
    · rw [Function.update_noteq hr] at h1 h2
      exact hinv.promUnique r' s' j j' h1 h2
  · intro j pj vis' t' hj hph'
    dsimp only at hj
    rcases props_lookup_set hj with ⟨rfl, rfl, _⟩ | ⟨hne, hj'⟩
    · simp only at hph'
      cases hph'
      obtain ⟨hnd, hsub, hfacts⟩ := hinv.promTally j p vis t hp hph
      have hrt : r ∉ t.map fun e => e.1 := by
        intro hmem
        obtain ⟨e, he, heq⟩ := List.mem_map.1 hmem
        exact hrv (heq ▸ hsub e he)
      refine ⟨?_, ?_, ?_⟩
      · rw [List.map_append]
        simp [List.nodup_append, hnd, hrt]
      · intro e he
        rcases List.mem_append.1 he with he | he
        · exact Finset.mem_insert_of_mem (hsub e he)
        · simp only [List.mem_singleton] at he
          subst he
          exact Finset.mem_insert_self _ _
      · intro e he
        rcases List.mem_append.1 he with he | he
        · obtain ⟨hrec, hbound, hcover⟩ := hfacts e he
          exact ⟨hpromRec e.1 p.seq j hrec, hbound, hcover⟩
        · simp only [List.mem_singleton] at he
          subst he
          refine ⟨?_, ?_, ?_⟩
          · dsimp only
            rw [Function.update_same]
            exact Finset.mem_insert_self _ _
          · intro a ha
            dsimp only at ha
            rw [hca] at ha
            have haa : a = a0 := (Option.some_inj.1 ha).symm
            subst haa
            exact ⟨by show a < p.seq; omega, fun hpos => hinv.cellVote r c a hc hca hpos⟩
          · intro s' w' hv
            dsimp only at hv ⊢
            rw [hca]
            exact Or.inl ⟨a0, rfl, hinv.voteUB r c a0 hc hca s' w' hv⟩
    · obtain ⟨hnd, hsub, hfacts⟩ := hinv.promTally j pj vis' t' hj' hph'
      refine ⟨hnd, hsub, ?_⟩
      intro e he
      obtain ⟨hrec, hbound, hcover⟩ := hfacts e he
      exact ⟨hpromRec e.1 pj.seq j hrec, hbound, hcover⟩
  · intro s' j w' hmem
    dsimp only at hmem
    obtain ⟨P, hP, hall⟩ := hinv.propQuorum s' j w' hmem
    exact ⟨P, hP, fun r'' hr'' => hpromRec r'' s' j (hall r'' hr'')⟩
  · intro s' j w' hmem
    dsimp only at hmem
    obtain ⟨pj, hpj, hseq, hnp, hacc, hlrn⟩ := hinv.propPhase s' j w' hmem
    by_cases hji : j = i
    · subst hji
      exfalso
      have heq : pj = p := by
        rw [hp] at hpj
        exact (Option.some_inj.1 hpj).symm
      exact hnp vis t (by rw [heq]; exact hph)
    · refine ⟨pj, ?_, hseq, hnp, hacc, hlrn⟩
      dsimp only
      rw [props_lookup_set_other _ _ _ _ hji]
      exact hpj
  · intro j pj vis' pr' acc' hj hph'
    dsimp only at hj
    rcases props_lookup_set hj with ⟨rfl, rfl, _⟩ | ⟨hne, hj'⟩
    · exact Phase.noConfusion hph'
    · exact hinv.accState j pj vis' pr' acc' hj' hph'
  · intro j pj vis' pr' lrn' hj hph'
    dsimp only at hj
    rcases props_lookup_set hj with ⟨rfl, rfl, _⟩ | ⟨hne, hj'⟩
    · exact Phase.noConfusion hph'
    · exact hinv.learnState j pj vis' pr' lrn' hj' hph'
  · intro s2 i2 w2 hmem s1 hlt1 w1 hne Q hQ
    dsimp only at hmem
    obtain ⟨rr, hrr, hleft, hnv⟩ := hinv.adopt s2 i2 w2 hmem s1 hlt1 w1 hne Q hQ
    refine ⟨rr, hrr, ?_, hnv⟩
    obtain ⟨cc, hcc, hrest⟩ := hleft
    by_cases hr : rr = r
    · subst hr
      rw [hc] at hcc
      cases Option.some_inj.1 hcc
      refine ⟨{ c with promised := some p.seq }, ?_, ?_⟩
      · show Function.update σ.cells rr (some { c with promised := some p.seq }) rr = _
        rw [Function.update_same]
      · rcases hrest with h0 | ⟨pv', hpv', hlt'⟩
        · rw [hcp] at h0
          exact Option.noConfusion h0
        · rw [hcp] at hpv'
          cases Option.some_inj.1 hpv'
          exact Or.inr ⟨p.seq, rfl, by omega⟩
    · refine ⟨cc, ?_, hrest⟩
      show Function.update σ.cells r (some { c with promised := some p.seq }) rr = _
      rw [Function.update_noteq hr]
      exact hcc

lemma inv_accept_hit {n : Nat} {q : Nat} {σ : GState n} (hinv : Inv q σ)
    (i : Nat) (p : Proposer n) (vis : Finset (Fin n)) (pr : Nat × Option Bytes)
    (acc : Finset (Fin n)) (r : Fin n) (c : Cell)
    (hp : σ.props[i]? = some p) (hph : p.phase = .accepting vis pr acc)
    (hrv : r ∉ vis) (hc : σ.cells r = some c) (hcp : c.promised = some p.seq) :
    Inv q { σ with
      cells := Function.update σ.cells r (some ⟨some p.seq, some p.seq, pr.2⟩)
      props := σ.props.set i { p with phase := .accepting (insert r vis) pr (insert r acc) }
      votes := Function.update σ.votes r (insert (p.seq, pr.2) (σ.votes r)) } := by
  have haccst := hinv.accState i p vis pr acc hp hph
  obtain ⟨a0, hca, hale⟩ := hinv.cellPA r c p.seq hc hcp
  have hvmono : ∀ r'' s' w', (s', w') ∈ σ.votes r'' →
      (s', w') ∈ (Function.update σ.votes r (insert (p.seq, pr.2) (σ.votes r))) r'' := by
    intro r'' s' w' hw
    by_cases hrr : r'' = r
    · subst hrr
      rw [Function.update_same]
      exact Finset.mem_insert_of_mem hw
    · rw [Function.update_noteq hrr]
      exact hw
  have hvotes_r : ∀ s' w', (s', w') ∈ σ.votes r → s' ≤ p.seq := by
    intro s' w' hw
    have := hinv.voteUB r c a0 hc hca s' w' hw
    omega
  have hchosen_mono : ∀ s', chosen q σ s' → chosen (n := n) q
      { σ with
        cells := Function.update σ.cells r (some ⟨some p.seq, some p.seq, pr.2⟩)
        props := σ.props.set i
          { p with phase := .accepting (insert r vis) pr (insert r acc) }
        votes := Function.update σ.votes r (insert (p.seq, pr.2) (σ.votes r)) } s' := by
    rintro s' ⟨Q, hQ, hall⟩
    exact ⟨Q, hQ, fun r'' hr'' => (hall r'' hr'').imp fun w' hw => hvmono r'' s' w' hw⟩
  refine
    { cellPA := ?_
      cellLearned := ?_
      cellVote := ?_
      voteUB := ?_
      voteCell := ?_
      promCell := ?_
      promSeqPos := hinv.promSeqPos
      promUnique := hinv.promUnique
      promTally := ?_
      propQuorum := hinv.propQuorum
      propUnique := hinv.propUnique
      propPhase := ?_
      accState := ?_
      learnState := ?_
      voteSafe := ?_
      adopt := ?_ }
  · intro r' c' pv' h hpv
    dsimp only at h
    by_cases hr : r' = r
    · subst hr
      rw [Function.update_same] at h
      cases Option.some_inj.1 h
      simp only at hpv
      cases Option.some_inj.1 hpv
      exact ⟨p.seq, rfl, le_refl _⟩
    · rw [Function.update_noteq hr] at h
      exact hinv.cellPA r' c' pv' h hpv
  · intro r' c' h hpn
    dsimp only at h
    by_cases hr : r' = r
    · subst hr
      rw [Function.update_same] at h
      cases Option.some_inj.1 h
      exact Option.noConfusion hpn
    · rw [Function.update_noteq hr] at h
      obtain ⟨hacc, s', w', hval, hvote, hch⟩ := hinv.cellLearned r' c' h hpn
      exact ⟨hacc, s', w', hval, hvmono r' s' (some w') hvote, hchosen_mono s' hch⟩
  · intro r' c' a h hac hpos
    dsimp only at h hac ⊢
    by_cases hr : r' = r
    · subst hr
      rw [Function.update_same] at h
      cases Option.some_inj.1 h
      simp only at hac
      cases Option.some_inj.1 hac
      rw [Function.update_same]
      exact Finset.mem_insert_self _ _
    · rw [Function.update_noteq hr] at h
      rw [Function.update_noteq hr]
      exact hinv.cellVote r' c' a h hac hpos
  · intro r' c' a h hac s' w' hv
    dsimp only at h hac hv
    by_cases hr : r' = r
    · subst hr
      rw [Function.update_same] at h hv
      cases Option.some_inj.1 h
      simp only at hac
      cases Option.some_inj.1 hac
      rcases Finset.mem_insert.1 hv with hv | hv
      · cases hv
        exact le_refl _
      · exact hvotes_r s' w' hv
    · rw [Function.update_noteq hr] at h hv
      exact hinv.voteUB r' c' a h hac s' w' hv
  · intro r' s' w' hv
    dsimp only at hv ⊢
    by_cases hr : r' = r
    · subst hr
      exact ⟨⟨some p.seq, some p.seq, pr.2⟩, Function.update_same _ _ _⟩
    · rw [Function.update_noteq hr] at hv
      obtain ⟨c', hc'⟩ := hinv.voteCell r' s' w' hv
      exact ⟨c', by rw [Function.update_noteq hr]; exact hc'⟩
  · intro r' s' j hpr
    dsimp only at hpr ⊢
    by_cases hr : r' = r
    · subst hr
      obtain ⟨c0, hc0, hr0⟩ := hinv.promCell r' s' j hpr
      rw [hc] at hc0
      cases Option.some_inj.1 hc0
      refine ⟨⟨some p.seq, some p.seq, pr.2⟩, Function.update_same _ _ _, ?_⟩
      rcases hr0 with h0 | ⟨pv', hpv', hle'⟩
      · rw [hcp] at h0
        exact Option.noConfusion h0
      · rw [hcp] at hpv'
        cases Option.some_inj.1 hpv'
        exact Or.inr ⟨p.seq, rfl, hle'⟩
    · obtain ⟨c0, hc0, hr0⟩ := hinv.promCell r' s' j hpr
      exact ⟨c0, by rw [Function.update_noteq hr]; exact hc0, hr0⟩
  · intro j pj vis' t' hj hph'
    dsimp only at hj
    rcases props_lookup_set hj with ⟨rfl, rfl, _⟩ | ⟨hne, hj'⟩
    · exact Phase.noConfusion hph'
    · obtain ⟨hnd, hsub, hfacts⟩ := hinv.promTally j pj vis' t' hj' hph'
      refine ⟨hnd, hsub, ?_⟩
      intro e he
      obtain ⟨hrec, hbound, hcover⟩ := hfacts e he
      refine ⟨hrec, ?_, ?_⟩
      · intro a ha
        obtain ⟨hlt', hv⟩ := hbound a ha
        exact ⟨hlt', fun hpos => hvmono e.1 a e.2.2 (hv hpos)⟩
      · intro s' w' hv
        dsimp only at hv
        by_cases hre : e.1 = r
        · rw [hre, Function.update_same] at hv
          rcases Finset.mem_insert.1 hv with hv | hv
          · cases hv
            right
            obtain ⟨c0, hc0, hr0⟩ := hinv.promCell e.1 pj.seq j (hrec)
            rw [hre, hc] at hc0
            cases Option.some_inj.1 hc0
            rcases hr0 with h0 | ⟨pv', hpv', hle'⟩
            · rw [hcp] at h0
              exact Option.noConfusion h0
            · rw [hcp] at hpv'
              cases Option.some_inj.1 hpv'
              exact hle'
          · exact hcover s' w' (hre ▸ hv)
        · rw [Function.update_noteq hre] at hv
          exact hcover s' w' hv
  · intro s' j w' hmem
    dsimp only at hmem
    obtain ⟨pj, hpj, hseq, hnp, hacc, hlrn⟩ := hinv.propPhase s' j w' hmem
    by_cases hji : j = i
    · subst hji
      have heq : pj = p := by
        rw [hp] at hpj
        exact (Option.some_inj.1 hpj).symm
      refine ⟨{ p with phase := .accepting (insert r vis) pr (insert r acc) },
        props_lookup_set_self _ _ _ (List.getElem?_eq_some.1 hp).1, ?_, ?_, ?_, ?_⟩
      · rw [← hseq, heq]
      · intro vis' t' h
        exact Phase.noConfusion h
      · intro vis' pr' acc' h
        simp only at h
        cases h
        exact hacc vis pr acc (by rw [heq]; exact hph)
      · intro vis' pr' lrn' h
        exact Phase.noConfusion h
    · refine ⟨pj, ?_, hseq, hnp, hacc, hlrn⟩
      dsimp only
      rw [props_lookup_set_other _ _ _ _ hji]
      exact hpj
  · intro j pj vis' pr' acc' hj hph'
    dsimp only at hj ⊢
    rcases props_lookup_set hj with ⟨rfl, rfl, _⟩ | ⟨hne, hj'⟩
    · simp only at hph'
      cases hph'
      obtain ⟨hprec, hvall⟩ := hinv.accState j p vis pr acc hp hph
      refine ⟨hprec, ?_⟩
      intro r'' hr''
      rcases Finset.mem_insert.1 hr'' with hr'' | hr''
      · subst hr''
        rw [Function.update_same]
        exact Finset.mem_insert_self _ _
      · exact hvmono r'' _ _ (hvall r'' hr'')
    · obtain ⟨hprec, hvall⟩ := hinv.accState j pj vis' pr' acc' hj' hph'
      exact ⟨hprec, fun r'' hr'' => hvmono r'' _ _ (hvall r'' hr'')⟩
  · intro j pj vis' pr' lrn' hj hph'
    dsimp only at hj
    rcases props_lookup_set hj with ⟨rfl, rfl, _⟩ | ⟨hne, hj'⟩
    · exact Phase.noConfusion hph'
    · obtain ⟨hprec, hch⟩ := hinv.learnState j pj vis' pr' lrn' hj' hph'
      exact ⟨hprec, hchosen_mono _ hch⟩
  · intro r' s' w' hv
    dsimp only at hv
    by_cases hr : r' = r
    · subst hr
      rw [Function.update_same] at hv
      rcases Finset.mem_insert.1 hv with hv | hv
      · cases hv
        exact ⟨i, haccst.1⟩
      · exact hinv.voteSafe r' s' w' hv
    · rw [Function.update_noteq hr] at hv
      exact hinv.voteSafe r' s' w' hv
  · intro s2 i2 w2 hmem s1 hlt1 w1 hne Q hQ
    dsimp only at hmem
    obtain ⟨rr, hrr, hleft, hnv⟩ := hinv.adopt s2 i2 w2 hmem s1 hlt1 w1 hne Q hQ
    obtain ⟨cc, hcc, hrest⟩ := hleft
    by_cases hr : rr = r
    · subst hr
      rw [hc] at hcc
      cases Option.some_inj.1 hcc
      have hs1 : s1 < p.seq := by
        rcases hrest with h0 | ⟨pv', hpv', hlt'⟩
        · rw [hcp] at h0
          exact Option.noConfusion h0
        · rw [hcp] at hpv'
          cases Option.some_inj.1 hpv'
          exact hlt'
      refine ⟨rr, hrr, ?_, ?_⟩
      · refine ⟨⟨some p.seq, some p.seq, pr.2⟩, ?_, Or.inr ⟨p.seq, rfl, hs1⟩⟩
        show Function.update σ.cells rr (some ⟨some p.seq, some p.seq, pr.2⟩) rr = _
        rw [Function.update_same]
      · show (s1, w1) ∉ Function.update σ.votes rr (insert (p.seq, pr.2) (σ.votes rr)) rr
        rw [Function.update_same]
        intro hmem'
        rcases Finset.mem_insert.1 hmem' with h' | h'
        · have : s1 = p.seq := congrArg Prod.fst h'
          omega
        · exact hnv h'
    · refine ⟨rr, hrr, ?_, ?_⟩
      · refine ⟨cc, ?_, hrest⟩
        show Function.update σ.cells r (some ⟨some p.seq, some p.seq, pr.2⟩) rr = _
        rw [Function.update_noteq hr]
        exact hcc
      · show (s1, w1) ∉ Function.update σ.votes r (insert (p.seq, pr.2) (σ.votes r)) rr
        rw [Function.update_noteq hr]
        exact hnv

lemma inv_learn_hit {n : Nat} {q : Nat} {σ : GState n} (hq1 : 1 ≤ q) (hinv : Inv q σ)
    (i : Nat) (p : Proposer n) (vis : Finset (Fin n)) (pr : Nat × Option Bytes)
    (lrn : Finset (Fin n)) (r : Fin n) (c : Cell) (w : Bytes)
    (hp : σ.props[i]? = some p) (hph : p.phase = .learning vis pr lrn)
    (hrv : r ∉ vis) (hc : σ.cells r = some c) (hcp : c.promised = some p.seq)
    (hca : c.accepted = some p.seq) (hcv : c.value = some w) :
    Inv q { σ with
      cells := Function.update σ.cells r (some ⟨none, none, some w⟩)
      props := σ.props.set i
        { p with phase := .learning (insert r vis) pr (insert r lrn) } } := by
  have hlst := hinv.learnState i p vis pr lrn hp hph
  have hspos : 1 ≤ p.seq := inv_seq_pos_of_propRec hq1 hinv hlst.1
  have hvote : (p.seq, some w) ∈ σ.votes r := by
    have := hinv.cellVote r c p.seq hc hca hspos
    rw [hcv] at this
    exact this
  refine
    { cellPA := ?_
      cellLearned := ?_
      cellVote := ?_
      voteUB := ?_
      voteCell := ?_
      promCell := ?_
      promSeqPos := hinv.promSeqPos
      promUnique := hinv.promUnique
      promTally := ?_
      propQuorum := hinv.propQuorum
      propUnique := hinv.propUnique
      propPhase := ?_
      accState := ?_
      learnState := ?_
      voteSafe := hinv.voteSafe
      adopt := ?_ }
  · intro r' c' pv' h hpv
    dsimp only at h
    by_cases hr : r' = r
    · subst hr
      rw [Function.update_same] at h
      cases Option.some_inj.1 h
      exact Option.noConfusion hpv
    · rw [Function.update_noteq hr] at h
      exact hinv.cellPA r' c' pv' h hpv
  · intro r' c' h hpn
    dsimp only at h
    by_cases hr : r' = r
    · subst hr
      rw [Function.update_same] at h
      cases Option.some_inj.1 h
      exact ⟨rfl, p.seq, w, rfl, hvote, hlst.2⟩
    · rw [Function.update_noteq hr] at h
      exact hinv.cellLearned r' c' h hpn
  · intro r' c' a h hac hpos
    dsimp only at h hac ⊢
    by_cases hr : r' = r
    · subst hr
      rw [Function.update_same] at h
      cases Option.some_inj.1 h
      exact Option.noConfusion hac
    · rw [Function.update_noteq hr] at h
      exact hinv.cellVote r' c' a h hac hpos
  · intro r' c' a h hac s' w' hv
    dsimp only at h hac hv
    by_cases hr : r' = r
    · subst hr
      rw [Function.update_same] at h
      cases Option.some_inj.1 h
      exact Option.noConfusion hac
    · rw [Function.update_noteq hr] at h
      exact hinv.voteUB r' c' a h hac s' w' hv
  · intro r' s' w' hv
    dsimp only at hv ⊢
    by_cases hr : r' = r
    · subst hr
      exact ⟨⟨none, none, some w⟩, Function.update_same _ _ _⟩
    · obtain ⟨c', hc'⟩ := hinv.voteCell r' s' w' hv
      exact ⟨c', by rw [Function.update_noteq hr]; exact hc'⟩
  · intro r' s' j hpr
    dsimp only at hpr ⊢
    by_cases hr : r' = r
    · subst hr
      exact ⟨⟨none, none, some w⟩, Function.update_same _ _ _, Or.inl rfl⟩
    · obtain ⟨c0, hc0, hr0⟩ := hinv.promCell r' s' j hpr
      exact ⟨c0, by rw [Function.update_noteq hr]; exact hc0, hr0⟩
  · intro j pj vis' t' hj hph'
    dsimp only at hj
    rcases props_lookup_set hj with ⟨rfl, rfl, _⟩ | ⟨hne, hj'⟩
    · exact Phase.noConfusion hph'
    · exact hinv.promTally j pj vis' t' hj' hph'
  · intro s' j w' hmem
    dsimp only at hmem
    obtain ⟨pj, hpj, hseq, hnp, hacc, hlrn⟩ := hinv.propPhase s' j w' hmem
    by_cases hji : j = i
    · subst hji
      have heq : pj = p := by
        rw [hp] at hpj
        exact (Option.some_inj.1 hpj).symm
      refine ⟨{ p with phase := .learning (insert r vis) pr (insert r lrn) },
        props_lookup_set_self _ _ _ (List.getElem?_eq_some.1 hp).1, ?_, ?_, ?_, ?_⟩
      · rw [← hseq, heq]
      · intro vis' t' h
        exact Phase.noConfusion h
      · intro vis' pr' acc' h
        exact Phase.noConfusion h
      · intro vis' pr' lrn' h
        simp only at h
        cases h
        exact hlrn vis pr lrn (by rw [heq]; exact hph)
    · refine ⟨pj, ?_, hseq, hnp, hacc, hlrn⟩
      dsimp only
      rw [props_lookup_set_other _ _ _ _ hji]
      exact hpj
  · intro j pj vis' pr' acc' hj hph'
    dsimp only at hj
    rcases props_lookup_set hj with ⟨rfl, rfl, _⟩ | ⟨hne, hj'⟩
    · exact Phase.noConfusion hph'
    · exact hinv.accState j pj vis' pr' acc' hj' hph'
  · intro j pj vis' pr' lrn' hj hph'
    dsimp only at hj
    rcases props_lookup_set hj with ⟨rfl, rfl, _⟩ | ⟨hne, hj'⟩
    · simp only at hph'
      cases hph'
      exact hinv.learnState j p vis pr lrn hp hph
    · exact hinv.learnState j pj vis' pr' lrn' hj' hph'
  · intro s2 i2 w2 hmem s1 hlt1 w1 hne Q hQ
    dsimp only at hmem
    obtain ⟨rr, hrr, hleft, hnv⟩ := hinv.adopt s2 i2 w2 hmem s1 hlt1 w1 hne Q hQ
    obtain ⟨cc, hcc, hrest⟩ := hleft
    by_cases hr : rr = r
    · subst hr
      refine ⟨rr, hrr, ?_, hnv⟩
      refine ⟨⟨none, none, some w⟩, ?_, Or.inl rfl⟩
      show Function.update σ.cells rr (some ⟨none, none, some w⟩) rr = _
      rw [Function.update_same]
    · refine ⟨rr, hrr, ?_, hnv⟩
      refine ⟨cc, ?_, hrest⟩
      show Function.update σ.cells r (some ⟨none, none, some w⟩) rr = _
      rw [Function.update_noteq hr]
      exact hcc

lemma inv_toAccept {n : Nat} {q : Nat} {σ : GState n} (hq : n < 2 * q) (hinv : Inv q σ)
    (i : Nat) (p : Proposer n) (vis : Finset (Fin n))
    (t : List (Fin n × Option Nat × Option Bytes)) (pr : Nat × Option Bytes)
    (hp : σ.props[i]? = some p) (hph : p.phase = .promising vis t)
    (hqt : q ≤ t.length) (hcpro : chooseProposal p.cand (t.map fun e => e.2) = some pr) :
    Inv q { σ with
      props := σ.props.set i { p with phase := .accepting ∅ pr ∅ }
      propRec := insert (p.seq, i, pr.2) σ.propRec } := by
  have hq1 : 1 ≤ q := by omega
  obtain ⟨hnd, hsub, hfacts⟩ := hinv.promTally i p vis t hp hph
  obtain ⟨m, wv⟩ := pr
  obtain ⟨hspec1, hspec2, hspec3⟩ := chooseProposal_spec hcpro
  have hPcard : q ≤ ((t.map fun e => e.1).toFinset).card := by
    rw [List.toFinset_card_of_nodup hnd, List.length_map]
    exact hqt
  have hPrec : ∀ rr ∈ (t.map fun e => e.1).toFinset, (p.seq, i) ∈ σ.promRec rr := by
    intro rr hrr
    obtain ⟨e, he, heq⟩ := List.mem_map.1 (List.mem_toFinset.1 hrr)
    exact heq ▸ (hfacts e he).1
  have hno_old_at_seq : ∀ j w', (p.seq, j, w') ∈ σ.propRec → False := by
    intro j w' hold
    by_cases hji : j = i
    · subst hji
      obtain ⟨pj, hpj, hseq, hnp, _, _⟩ := hinv.propPhase p.seq j w' hold
      have heq : pj = p := by
        rw [hp] at hpj
        exact (Option.some_inj.1 hpj).symm
      exact hnp vis t (by rw [heq]; exact hph)
    · obtain ⟨Pj, hPj, hallj⟩ := hinv.propQuorum p.seq j w' hold
      obtain ⟨rr, hr1, hr2⟩ := quorum_intersect hq _ Pj hPcard hPj
      exact hji ((hinv.promUnique rr p.seq j i (hallj rr hr2) (hPrec rr hr1)).symm ▸ rfl)
  refine
    { cellPA := hinv.cellPA
      cellLearned := hinv.cellLearned
      cellVote := hinv.cellVote
      voteUB := hinv.voteUB
      voteCell := hinv.voteCell
      promCell := hinv.promCell
      promSeqPos := hinv.promSeqPos
      promUnique := hinv.promUnique
      promTally := ?_
      propQuorum := ?_
      propUnique := ?_
      propPhase := ?_
      accState := ?_
      learnState := ?_
      voteSafe := ?_
      adopt := ?_ }
  · intro j pj vis' t' hj hph'
    dsimp only at hj
    rcases props_lookup_set hj with ⟨rfl, rfl, _⟩ | ⟨hne, hj'⟩
    · exact Phase.noConfusion hph'
    · exact hinv.promTally j pj vis' t' hj' hph'
  · intro s' j w' hmem
    dsimp only at hmem
    rcases Finset.mem_insert.1 hmem with heq | hold
    · have h1 : s' = p.seq := congrArg Prod.fst heq
      have h2 : j = i := congrArg Prod.fst (congrArg Prod.snd heq)
      subst h1
      subst h2
      exact ⟨(t.map fun e => e.1).toFinset, hPcard, hPrec⟩
    · exact hinv.propQuorum s' j w' hold
  · intro s' j w' j2 w2 h1 h2
    dsimp only at h1 h2
    rcases Finset.mem_insert.1 h1 with he1 | ho1 <;>
      rcases Finset.mem_insert.1 h2 with he2 | ho2
    · have he12 := he1.trans he2.symm
      exact ⟨congrArg (fun x => x.2.1) he12, congrArg (fun x => x.2.2) he12⟩
    · exfalso
      have h1' : s' = p.seq := congrArg Prod.fst he1
      subst h1'
      exact hno_old_at_seq j2 w2 ho2
    · exfalso
      have h2' : s' = p.seq := congrArg Prod.fst he2
      subst h2'
      exact hno_old_at_seq j w' ho1
    · exact hinv.propUnique s' j w' j2 w2 ho1 ho2
  · intro s' j w' hmem
    dsimp only at hmem
    rcases Finset.mem_insert.1 hmem with heq | hold
    · have h1 : s' = p.seq := congrArg Prod.fst heq
      have h2 : j = i := congrArg (fun x => x.2.1) heq
      have h3 : w' = wv := congrArg (fun x => x.2.2) heq
      subst h1
      subst h2
      subst h3
      refine ⟨{ p with phase := .accepting ∅ (m, w') ∅ },
        props_lookup_set_self _ _ _ (List.getElem?_eq_some.1 hp).1, rfl, ?_, ?_, ?_⟩
      · intro vis' t' h
        exact Phase.noConfusion h
      · intro vis' pr' acc' h
        simp only at h
        cases h
        rfl
      · intro vis' pr' lrn' h
        exact Phase.noConfusion h
    · obtain ⟨pj, hpj, hseq, hnp, hacc, hlrn⟩ := hinv.propPhase s' j w' hold
      by_cases hji : j = i
      · subst hji
        exfalso
        have heq : pj = p := by
          rw [hp] at hpj
          exact (Option.some_inj.1 hpj).symm
        exact hnp vis t (by rw [heq]; exact hph)
      · refine ⟨pj, ?_, hseq, hnp, hacc, hlrn⟩
        dsimp only
        rw [props_lookup_set_other _ _ _ _ hji]
        exact hpj
  · intro j pj vis' pr' acc' hj hph'
    dsimp only at hj ⊢
    rcases props_lookup_set hj with ⟨rfl, rfl, _⟩ | ⟨hne, hj'⟩
    · simp only at hph'
      cases hph'
      exact ⟨Finset.mem_insert_self _ _, fun r'' hr'' => absurd hr'' (Finset.not_mem_empty r'')⟩
    · obtain ⟨hprec, hvall⟩ := hinv.accState j pj vis' pr' acc' hj' hph'
      exact ⟨Finset.mem_insert_of_mem hprec, hvall⟩
  · intro j pj vis' pr' lrn' hj hph'
    dsimp only at hj ⊢
    rcases props_lookup_set hj with ⟨rfl, rfl, _⟩ | ⟨hne, hj'⟩
    · exact Phase.noConfusion hph'
    · obtain ⟨hprec, hch⟩ := hinv.learnState j pj vis' pr' lrn' hj' hph'
      exact ⟨Finset.mem_insert_of_mem hprec, hch⟩
  · intro r' s' w' hv
    obtain ⟨i', hi'⟩ := hinv.voteSafe r' s' w' hv
    exact ⟨i', Finset.mem_insert_of_mem hi'⟩
  · intro s2 i2 w2 hmem s1 hlt1 w1 hne Q hQ
    dsimp only at hmem
    rcases Finset.mem_insert.1 hmem with heq | hold
    · have h1 : s2 = p.seq := congrArg Prod.fst heq
      have h3 : w2 = wv := congrArg (fun x => x.2.2) heq
      subst h1
      subst h3
      obtain ⟨rr, hrQ, hrP⟩ := quorum_intersect hq Q _ hQ hPcard
      have hleft : leftRnd σ rr s1 := by
        obtain ⟨c0, hc0, hr0⟩ := hinv.promCell rr p.seq i (hPrec rr hrP)
        refine ⟨c0, hc0, ?_⟩
        rcases hr0 with h0 | ⟨pv', hpv', hle'⟩
        · exact Or.inl h0
        · exact Or.inr ⟨pv', hpv', by omega⟩
      by_cases hvr : (s1, w1) ∈ σ.votes rr
      · obtain ⟨e, he, herr⟩ := List.mem_map.1 (List.mem_toFinset.1 hrP)
        obtain ⟨hrec, hbound, hcover⟩ := hfacts e he
        rcases hcover s1 w1 (herr ▸ hvr) with ⟨a, hea, hs1a⟩ | hge
        · obtain ⟨a', hea', haw⟩ := hspec1 e.2 (List.mem_map.2 ⟨e, he, rfl⟩)
          rw [hea] at hea'
          have haa : a = a' := Option.some_inj.1 hea'
          subst haa
          have hs1pos : 1 ≤ s1 := inv_vote_pos hq1 hinv hvr
          have hmpos : 0 < m := by omega
          obtain ⟨e2, he2, he2m, he2w⟩ := hspec3 hmpos
          obtain ⟨e0, he0, he0eq⟩ := List.mem_map.1 he2
          obtain ⟨hrec0, hbound0, _⟩ := hfacts e0 he0
          obtain ⟨hmlt, hmv⟩ := hbound0 m (by rw [he0eq]; exact he2m)
          have hvm : (m, w2) ∈ σ.votes e0.1 := by
            have := hmv hmpos
            rw [he0eq, he2w] at this
            exact this
          rcases Nat.lt_or_ge s1 m with hlt2 | hge2
          · obtain ⟨i', hi'⟩ := hinv.voteSafe e0.1 m w2 hvm
            exact hinv.adopt m i' w2 hi' s1 hlt2 w1 hne Q hQ
          · have hs1m : s1 = m := by omega
            subst hs1m
            exact absurd (inv_vote_value_unique hinv hvr hvm) hne
        · omega
      · exact ⟨rr, hrQ, hleft, hvr⟩
    · exact hinv.adopt s2 i2 w2 hold s1 hlt1 w1 hne Q hQ

lemma inv_step {n q : Nat} {σ σ' : GState n} (hq : n < 2 * q)
    (hinv : Inv q σ) (hstep : Step q σ σ') : Inv q σ' := by
  have hq1 : 1 ≤ q := by omega
  cases hstep with
  | start s c => exact inv_start hinv s c
  | ensureRow r hc => exact inv_ensure_row hinv r hc
  | promiseLearned i p vis t r c hp hph hrv hc1 hc2 hc3 => exact inv_halt hinv i p hp
  | promiseTypeErr i p vis t r c a hp hph hrv hc1 hc2 hc3 =>
      exact inv_promise_skip hinv i p vis t r hp hph
  | promiseReject i p vis t r c pv hp hph hrv hc1 hc2 hc3 =>
      exact inv_promise_skip hinv i p vis t r hp hph
  | promiseWrite i p vis t r c pv hp hph hrv hc hcp hlt =>
      exact inv_promise_write hinv i p vis t r c pv hp hph hrv hc hcp hlt
  | toAccept i p vis t pr hp hph hqt hcpro =>
      exact inv_toAccept hq hinv i p vis t pr hp hph hqt hcpro
  | acceptHit i p vis pr acc r c hp hph hrv hc hcp =>
      exact inv_accept_hit hinv i p vis pr acc r c hp hph hrv hc hcp
  | acceptMiss i p vis pr acc r hp hph hrv hmiss =>
      exact inv_accept_miss hinv i p vis pr acc r hp hph
  | toLearn i p vis pr acc hp hph hqa =>
      exact inv_toLearn hinv i p vis pr acc hp hph hqa
  | learnHit i p vis pr lrn r c w hp hph hrv hc hcp hca hcv =>
      exact inv_learn_hit hq1 hinv i p vis pr lrn r c w hp hph hrv hc hcp hca hcv
  | learnMiss i p vis pr lrn r hp hph hrv hmiss =>
      exact inv_learn_miss hinv i p vis pr lrn r hp hph
  | halt i p hp => exact inv_halt hinv i p hp

lemma inv_reach {n q : Nat} {σ : GState n} (hq : n < 2 * q) (hr : Reach q σ) :
    Inv q σ := by
  induction hr with
  | init => exact inv_init q
  | step σ σ' hre hst ih => exact inv_step hq ih hst

lemma chosen_vote_agree_le {n q : Nat} {σ : GState n} (hinv : Inv q σ)
    {r1 r2 : Fin n} {s1 s2 : Nat} {w1 w2 : Option Bytes} (hle : s1 ≤ s2)
    (hv1 : (s1, w1) ∈ σ.votes r1) (hch1 : chosen q σ s1)
    (hv2 : (s2, w2) ∈ σ.votes r2) : w1 = w2 := by
  rcases Nat.lt_or_ge s1 s2 with hlt | hge
  · by_contra hne
    obtain ⟨i2, hi2⟩ := hinv.voteSafe r2 s2 w2 hv2
    obtain ⟨Q, hQcard, hQvotes⟩ := hch1
    obtain ⟨r, hrQ, hleft, hnv⟩ := hinv.adopt s2 i2 w2 hi2 s1 hlt w1 hne Q hQcard
    obtain ⟨w, hw⟩ := hQvotes r hrQ
    have hww : w = w1 := inv_vote_value_unique hinv hw hv1
    subst hww
    exact hnv hw
  · have hs : s1 = s2 := by omega
    subst hs
    exact inv_vote_value_unique hinv hv1 hv2

/-- C1 (amended): under a majority quorum (`n < 2 * q`), at every reachable
protocol state for the fixed `(key, version)` pair, any two replicas whose
row is LEARNED (`promised_seq` and `accepted_seq` both NULL) hold equal
values — the set of LEARNED values is a singleton.  (The unrestricted claim,
with the Learn-phase garbage-collection deletes of other versions of the key
included, is refuted by `paxos_learned_values_diverge`.) -/
theorem protocol_learned_agreement {n q : Nat} {σ : GState n}
    (hq : n < 2 * q) (hr : Reach q σ) (r1 r2 : Fin n) (c1 c2 : Cell)
    (h1 : σ.cells r1 = some c1) (h2 : σ.cells r2 = some c2)
    (hl1 : c1.promised = none) (hl2 : c2.promised = none) :
    c1.value = c2.value := by
  have hinv := inv_reach hq hr
  obtain ⟨-, s1, w1, hv1, hvm1, hch1⟩ := hinv.cellLearned r1 c1 h1 hl1
  obtain ⟨-, s2, w2, hv2, hvm2, hch2⟩ := hinv.cellLearned r2 c2 h2 hl2
  rw [hv1, hv2]
  rcases Nat.le_total s1 s2 with hle | hle
  · exact chosen_vote_agree_le hinv hle hvm1 hch1 hvm2
  · exact (chosen_vote_agree_le hinv hle hvm2 hch2 hvm1).symm

theorem protocol_learned_agreement_witness :
    (1 : Nat) < 2 * 1 ∧
      (Cell.value ⟨none, none, some [7]⟩ : Option Bytes)
        = Cell.value ⟨none, none, some [7]⟩ := by
  refine ⟨by decide, ?_⟩
  have h0 : Reach 1 (initState 1) := Reach.init
  have h1 := Reach.step _ _ h0 (Step.start _ 1 [7])
  have h2 := Reach.step _ _ h1 (Step.ensureRow _ 0 rfl)
  have h3 := Reach.step _ _ h2
    (Step.promiseWrite _ 0 ⟨1, [7], .promising ∅ []⟩ ∅ [] 0 ⟨some 0, some 0, none⟩ 0
      (by decide) rfl (by decide) (by decide) rfl (by decide))
  have h4 := Reach.step _ _ h3
    (Step.toAccept _ 0 ⟨1, [7], .promising {0} [(0, some 0, none)]⟩ {0}
      [(0, some 0, none)] (0, some [7]) (by decide) rfl (by decide) (by decide))
  have h5 := Reach.step _ _ h4
    (Step.acceptHit _ 0 ⟨1, [7], .accepting ∅ (0, some [7]) ∅⟩ ∅ (0, some [7]) ∅ 0
      ⟨some 1, some 0, none⟩ (by decide) rfl (by decide) (by decide) rfl)
  have h6 := Reach.step _ _ h5
    (Step.toLearn _ 0 ⟨1, [7], .accepting {0} (0, some [7]) {0}⟩ {0} (0, some [7]) {0}
      (by decide) rfl (by decide))
  have h7 := Reach.step _ _ h6
    (Step.learnHit _ 0 ⟨1, [7], .learning ∅ (0, some [7]) ∅⟩ ∅ (0, some [7]) ∅ 0
      ⟨some 1, some 1, some [7]⟩ [7] (by decide) rfl (by decide) (by decide) rfl rfl rfl)
  exact protocol_learned_agreement (by decide) h7 0 0
    ⟨none, none, some [7]⟩ ⟨none, none, some [7]⟩ (by decide) (by decide) rfl rfl

end BasicPaxos
